import Mathlib

/-!
Shallow embedding of the boids simulation (`src/boid.rs`, `src/main.rs`).

Modelling conventions, used consistently below:

* Rust `i16` values are modelled as `ℤ`; wherever the source performs wrapping
  arithmetic (`wrapping_mul`, `wrapping_add`, release-mode `+=` / `.pow(2)`),
  the model applies `wrap16` explicitly.  A `u16` value reinterpreted as `i16`
  (`width as i16`) is `wrap16` of the unsigned value.
* Rust `f32` arithmetic is modelled by exact rational / real arithmetic.  The
  float-to-integer cast `as i16` truncates toward zero and saturates at the
  `i16` range; it is modelled by truncation (`Int.sign`/`isqrt` for values of
  the form `v·t/√s`) followed by `sat16`.  `sqrt` of a negative operand yields
  NaN; every NaN branch of the source is modelled explicitly (NaN compares
  false, casts to 0).
* `f32::sqrt` composed with truncation to an integer is modelled exactly:
  for an integer `m ≥ 0`, `⌊√m⌋ = isqrt m`, and
  `⌊(v·t)/√s⌋ = isqrt ((v·t)² / s)` with integer (floor) division.
* Rust's `%` on floats (sign of the dividend) is `ratRem`.
* Random draws (`rand::thread_rng`) are passed as explicit parameters.
* A Rust `panic!` (and, in one capacity-0 corner, non-terminating recursion)
  is modelled by returning `none`; normal returns are `some`.
-/

/-- Integer square root (largest `k` with `k*k ≤ n`), as a structurally
recursive function so that concrete instances reduce. -/
def isqrt : ℕ → ℕ
  | 0 => 0
  | n + 1 =>
    let r := isqrt n
    if (r + 1) * (r + 1) ≤ n + 1 then r + 1 else r

/-- Wrap an integer into the `i16` range, as Rust `wrapping_mul`/`wrapping_add`
and `u16 as i16` reinterpretation do. -/
def wrap16 (z : ℤ) : ℤ := (z + 32768) % 65536 - 32768

/-- Saturate an integer into the `i16` range, as Rust float-to-`i16` `as` casts
do for out-of-range finite values. -/
def sat16 (z : ℤ) : ℤ := max (-32768) (min 32767 z)

/-- Truncation of a rational toward zero (the rounding used by Rust float-to-int
`as` casts). -/
def qtrunc (q : ℚ) : ℤ := if 0 ≤ q then ⌊q⌋ else ⌈q⌉

/-- Rust's `%` on floats: remainder with the sign of the dividend,
`a - b * trunc (a / b)`. -/
def ratRem (a b : ℚ) : ℚ := a - b * (qtrunc (a / b) : ℚ)

/-- `src/node.rs` `Vertice`: an `i16` point. -/
structure Vertice where
  x : ℤ
  y : ℤ
deriving DecidableEq

/-- `src/boid.rs` `Boid`: position, size, `i16` velocity components, RGBA color.
`PartialEq` is derived in the source, so equality compares all fields. -/
structure Boid where
  vertice : Vertice
  size : ℤ
  velocity_x : ℤ
  velocity_y : ℤ
  color : ℕ × ℕ × ℕ × ℕ
deriving DecidableEq

/-- The i16 value of `((v as f32 / speed) * t as f32) as i16` where
`speed = sqrt s` with `s > 0`: exact-real value `v·t/√s`, truncated toward zero
(`⌊|v·t|/√s⌋ = isqrt ((v·t)²/s)` with floor division) and saturated. -/
def scale_cast (v t s : ℤ) : ℤ :=
  sat16 ((v * t).sign * (isqrt ((v * v * t * t).toNat / s.toNat) : ℤ))

/-- `Boid::speed_limit` (`src/boid.rs:155-178`).  The squared-speed is computed
with `i16` wrapping arithmetic; `speed` is its `f32` square root (NaN when the
wrapped value is negative).  On a zero speed the velocity is re-randomized:
`rng_vx` models `rng.gen_range(-min_speed..=min_speed)` and `rng_sign` the
uniformly chosen sign of the derived `velocity_y`
(`((min² - vx²) as f32).sqrt() as i16 * ±1`, where `min²` and `vx²` wrap and a
negative radicand gives NaN, cast to 0).  Otherwise the comparisons use
`speed as i16` (`= isqrt s`; NaN casts to 0) and rescale via `scale_cast`; the
second `if` reuses the already-updated components but the old `speed`. -/
def Boid.speed_limit (b : Boid) (max_speed min_speed : ℤ)
    (rng_vx : ℤ) (rng_sign : Bool) : Boid :=
  let x := wrap16 (b.velocity_x * b.velocity_x)
  let y := wrap16 (b.velocity_y * b.velocity_y)
  let s := wrap16 (x + y)
  if s = 0 then
    let vy := sat16 (isqrt (wrap16 (wrap16 (min_speed * min_speed) -
                wrap16 (rng_vx * rng_vx))).toNat : ℤ) * (if rng_sign then 1 else -1)
    { b with velocity_x := rng_vx, velocity_y := vy }
  else if s < 0 then
    -- speed is NaN: `(speed as i16) = 0`, and any rescaled component is
    -- `(v / NaN * t) as i16 = 0`.
    let vx1 := if 0 > max_speed then 0 else b.velocity_x
    let vy1 := if 0 > max_speed then 0 else b.velocity_y
    let vx2 := if 0 < min_speed then 0 else vx1
    let vy2 := if 0 < min_speed then 0 else vy1
    { b with velocity_x := vx2, velocity_y := vy2 }
  else
    let fl : ℤ := (isqrt s.toNat : ℤ)
    let vx1 := if fl > max_speed then scale_cast b.velocity_x max_speed s else b.velocity_x
    let vy1 := if fl > max_speed then scale_cast b.velocity_y max_speed s else b.velocity_y
    let vx2 := if fl < min_speed then scale_cast vx1 min_speed s else vx1
    let vy2 := if fl < min_speed then scale_cast vy1 min_speed s else vy1
    { b with velocity_x := vx2, velocity_y := vy2 }

/-- `Boid::is_within_sight` (`src/boid.rs:232-241`): angles are `f32` degrees,
`%` is the float remainder `ratRem`. -/
def Boid.is_within_sight (facing_angle view_angle object_angle : ℚ) : Bool :=
  let lower_angle := facing_angle - view_angle / 2
  let upper_angle := facing_angle + view_angle / 2
  let lower_to_object := ratRem (object_angle - lower_angle) 360
  let lower_to_upper := ratRem (upper_angle - lower_angle) 360
  decide (lower_to_object ≤ lower_to_upper)

/-- `<Boid as MovableNode>::update` (`src/boid.rs:281-296`): position steps by
velocity (wrapping `i16` addition), then each coordinate that left `[0, width]`
(resp. `[0, height]`) is reset to the opposite edge, where `width`/`height` are
`u16` values reinterpreted as `i16`. -/
def Boid.update (b : Boid) (width height : ℕ) : Boid :=
  let x0 := wrap16 (b.vertice.x + b.velocity_x)
  let y0 := wrap16 (b.vertice.y + b.velocity_y)
  let w16 := wrap16 (width : ℤ)
  let h16 := wrap16 (height : ℤ)
  let x1 := if x0 < 0 then w16 else x0
  let x2 := if x1 > w16 then 0 else x1
  let y1 := if y0 < 0 then h16 else y0
  let y2 := if y1 > h16 then 0 else y1
  { b with vertice := ⟨x2, y2⟩ }

/-- The squared magnitude of a boid's velocity, `vx² + vy²` in exact
arithmetic. -/
def Boid.speedSq (b : Boid) : ℤ :=
  b.velocity_x * b.velocity_x + b.velocity_y * b.velocity_y

/-- `src/main.rs` `Rectangle`: an axis-aligned rectangle given by center and
half extents, `f32` fields modelled as `ℚ`. -/
structure Rectangle where
  center_x : ℚ
  center_y : ℚ
  half_width : ℚ
  half_height : ℚ
deriving DecidableEq

/-- `Rectangle::contains_point` (`src/main.rs:262-268`): inclusive bounds test. -/
def Rectangle.contains_point (r : Rectangle) (x y : ℚ) : Bool :=
  let min_x := r.center_x - r.half_width
  let max_x := r.center_x + r.half_width
  let min_y := r.center_y - r.half_height
  let max_y := r.center_y + r.half_height
  decide (min_x ≤ x ∧ x ≤ max_x ∧ min_y ≤ y ∧ y ≤ max_y)

/-- `Rectangle::intersects` (`src/main.rs:270-275`): the distance from the
rectangle center to the vertice is compared against the radius
(`sqrt (dx²+dy²) ≤ radius`, which over the reals is
`0 ≤ radius ∧ dx²+dy² ≤ radius²`). -/
def Rectangle.intersects (r : Rectangle) (v : Vertice) (vision_radius : ℚ) : Bool :=
  let dx := r.center_x - (v.x : ℚ)
  let dy := r.center_y - (v.y : ℚ)
  decide (0 ≤ vision_radius ∧ dx * dx + dy * dy ≤ vision_radius * vision_radius)

/-- Top-right child rectangle built by `QuadTree::split` (`src/main.rs:367-372`). -/
def Rectangle.tr_child (r : Rectangle) : Rectangle :=
  ⟨r.center_x + r.half_width / 2, r.center_y + r.half_height / 2,
   r.half_width / 2, r.half_height / 2⟩

/-- Top-left child rectangle built by `QuadTree::split` (`src/main.rs:374-379`). -/
def Rectangle.tl_child (r : Rectangle) : Rectangle :=
  ⟨r.center_x - r.half_width / 2, r.center_y + r.half_height / 2,
   r.half_width / 2, r.half_height / 2⟩

/-- Bottom-right child rectangle built by `QuadTree::split` (`src/main.rs:381-386`). -/
def Rectangle.br_child (r : Rectangle) : Rectangle :=
  ⟨r.center_x + r.half_width / 2, r.center_y - r.half_height / 2,
   r.half_width / 2, r.half_height / 2⟩

/-- Bottom-left child rectangle built by `QuadTree::split` (`src/main.rs:388-394`). -/
def Rectangle.bl_child (r : Rectangle) : Rectangle :=
  ⟨r.center_x - r.half_width / 2, r.center_y - r.half_height / 2,
   r.half_width / 2, r.half_height / 2⟩

mutual
/-- `src/main.rs` `QuadTree`: capacity, boundary, directly stored boids, four
optional children (`Option<Box<QuadTree>>`), and the `splitted` flag.  The
child options are represented by the mutually defined `OptQT`, an isomorphic
copy of `Option QuadTree` (a plain nested `Option` defeats Lean's equation
generation for recursive functions). -/
inductive QuadTree where
  | mk (capacity : ℕ) (boundary : Rectangle) (boids : List Boid)
       (top_right top_left bottom_right bottom_left : OptQT)
       (splitted : Bool)

/-- Isomorphic copy of `Option QuadTree` for the child slots. -/
inductive OptQT where
  | none
  | some (q : QuadTree)
end

def QuadTree.capacity : QuadTree → ℕ
  | .mk c _ _ _ _ _ _ _ => c

def QuadTree.boundary : QuadTree → Rectangle
  | .mk _ bd _ _ _ _ _ _ => bd

def QuadTree.boids : QuadTree → List Boid
  | .mk _ _ bs _ _ _ _ _ => bs

def QuadTree.top_right : QuadTree → OptQT
  | .mk _ _ _ tr _ _ _ _ => tr

def QuadTree.top_left : QuadTree → OptQT
  | .mk _ _ _ _ tl _ _ _ => tl

def QuadTree.bottom_right : QuadTree → OptQT
  | .mk _ _ _ _ _ br _ _ => br

def QuadTree.bottom_left : QuadTree → OptQT
  | .mk _ _ _ _ _ _ bl _ => bl

def QuadTree.splitted : QuadTree → Bool
  | .mk _ _ _ _ _ _ _ sp => sp

/-- `Option::is_some` for the child slots. -/
def OptQT.isSome : OptQT → Bool
  | .none => false
  | .some _ => true

/-- The boundary of an optional child, when present. -/
def OptQT.boundaryOf : OptQT → Option Rectangle
  | .none => Option.none
  | .some q => Option.some q.boundary

/-- `QuadTree::new` (`src/main.rs:297-308`). -/
def QuadTree.new (capacity : ℕ) (boundary : Rectangle) : QuadTree :=
  .mk capacity boundary [] .none .none .none .none false

/-- The result of inserting into one of the four fresh empty leaves created by
`QuadTree::split`, inlined into `QuadTree.insert` below.  Inserting into a
fresh empty leaf rejects when the point is outside its quadrant, pushes when
the capacity is at least 1, and recurses without bound when the capacity is 0
(the fresh leaf is itself immediately full); the unbounded recursion is
modelled as `none`. -/
def fresh_leaf_after (cap : ℕ) (rc : Rectangle) (b : Boid) : Option (QuadTree × Bool) :=
  if rc.contains_point (b.vertice.x : ℚ) (b.vertice.y : ℚ) then
    if cap = 0 then Option.none
    else Option.some (.mk cap rc [b] .none .none .none .none false, true)
  else Option.some (QuadTree.new cap rc, false)

/-- The `!splitted` overflow path of `QuadTree::insert`: `split()` installs four
fresh empty quadrant leaves and sets `splitted`, then the four tries run
against those fresh leaves (inlined via `fresh_leaf_after`), in the source
order `top_left`, `top_right`, `bottom_left`, `bottom_right`. -/
def fresh_split_insert (cap : ℕ) (bd : Rectangle) (bs : List Boid) (b : Boid) :
    Option (QuadTree × Bool) :=
  match fresh_leaf_after cap bd.tl_child b with
  | none => none
  | some rtl =>
    if rtl.2 then
      some (.mk cap bd bs (.some (QuadTree.new cap bd.tr_child)) (.some rtl.1)
        (.some (QuadTree.new cap bd.br_child)) (.some (QuadTree.new cap bd.bl_child))
        true, true)
    else
      match fresh_leaf_after cap bd.tr_child b with
      | none => none
      | some rtr =>
        if rtr.2 then
          some (.mk cap bd bs (.some rtr.1) (.some rtl.1)
            (.some (QuadTree.new cap bd.br_child))
            (.some (QuadTree.new cap bd.bl_child)) true, true)
        else
          match fresh_leaf_after cap bd.bl_child b with
          | none => none
          | some rbl =>
            if rbl.2 then
              some (.mk cap bd bs (.some rtr.1) (.some rtl.1)
                (.some (QuadTree.new cap bd.br_child)) (.some rbl.1) true, true)
            else
              match fresh_leaf_after cap bd.br_child b with
              | none => none
              | some rbr =>
                some (.mk cap bd bs (.some rtr.1) (.some rtl.1) (.some rbr.1)
                  (.some rbl.1) true, rbr.2)

mutual
/-- `QuadTree::insert` (`src/main.rs:310-364`).  Returns `some (tree, flag)` for
a normal return (`flag` is the Rust return value) and `none` when a `panic!`
branch fires (a `None` child while `splitted`) or, in the capacity-0 corner,
the recursion does not terminate.  When the node is full and already split, the
four children are tried in the source order `top_left`, `top_right`,
`bottom_left`, `bottom_right` (via `OptQT.insert_child`); a try that returns
`false` keeps the (then unchanged) child tree.  When the node is full and not
yet split, `fresh_split_insert` performs the split-then-try sequence. -/
def QuadTree.insert : QuadTree → Boid → Option (QuadTree × Bool)
  | .mk cap bd bs tr0 tl0 br0 bl0 sp0, b =>
    if ¬ bd.contains_point (b.vertice.x : ℚ) (b.vertice.y : ℚ) then
      some (.mk cap bd bs tr0 tl0 br0 bl0 sp0, false)
    else if bs.length < cap then
      some (.mk cap bd (bs ++ [b]) tr0 tl0 br0 bl0 sp0, true)
    else if sp0 then
      match OptQT.insert_child tl0 b with
      | none => none
      | some rtl =>
        if rtl.2 then some (.mk cap bd bs tr0 rtl.1 br0 bl0 sp0, true)
        else
          match OptQT.insert_child tr0 b with
          | none => none
          | some rtr =>
            if rtr.2 then some (.mk cap bd bs rtr.1 rtl.1 br0 bl0 sp0, true)
            else
              match OptQT.insert_child bl0 b with
              | none => none
              | some rbl =>
                if rbl.2 then
                  some (.mk cap bd bs rtr.1 rtl.1 br0 rbl.1 sp0, true)
                else
                  match OptQT.insert_child br0 b with
                  | none => none
                  | some rbr => some (.mk cap bd bs rtr.1 rtl.1 rbr.1 rbl.1 sp0, rbr.2)
    else fresh_split_insert cap bd bs b

/-- One `match`-arm of `QuadTree::insert` on a child slot: a missing child is
the `panic!` branch (`none`), a present child receives the recursive insert. -/
def OptQT.insert_child : OptQT → Boid → Option (OptQT × Bool)
  | .none, _ => none
  | .some q, b =>
    match q.insert b with
    | none => none
    | some r => some (.some r.1, r.2)
end

mutual
/-- `QuadTree::query` (`src/main.rs:397-441`): prunes when the boundary neither
intersects the query circle nor contains the query point, collects the stored
boids different from the query boid into the accumulator `found`, and when
split recurses into `top_left`, `top_right`, `bottom_left`, `bottom_right` in
order (`none` models the `panic!` on a missing child). -/
def QuadTree.query : QuadTree → List Boid → Boid → ℚ → Option (List Boid)
  | .mk _cap bd bs tr0 tl0 br0 bl0 sp0, found, b, vision_radius =>
    if ¬ bd.intersects b.vertice vision_radius ∧
        ¬ bd.contains_point (b.vertice.x : ℚ) (b.vertice.y : ℚ) then
      some found
    else if ¬ sp0 then some (found ++ bs.filter (fun ob => ob ≠ b))
    else
      match OptQT.query_child tl0 (found ++ bs.filter (fun ob => ob ≠ b))
          b vision_radius with
        | none => none
        | some found2 =>
          match OptQT.query_child tr0 found2 b vision_radius with
          | none => none
          | some found3 =>
            match OptQT.query_child bl0 found3 b vision_radius with
            | none => none
            | some found4 => OptQT.query_child br0 found4 b vision_radius

/-- One `match`-arm of `QuadTree::query` on a child slot. -/
def OptQT.query_child : OptQT → List Boid → Boid → ℚ → Option (List Boid)
  | .none, _, _, _ => none
  | .some q, found, b, vision_radius => q.query found b vision_radius
end

mutual
/-- `QuadTree::to_vec` (`src/main.rs:484-525`): the stored boids followed by the
flattened `top_left`, `top_right`, `bottom_left`, `bottom_right` subtrees when
split (`none` models the `panic!` on a missing child). -/
def QuadTree.to_vec : QuadTree → Option (List Boid)
  | .mk _cap _bd bs tr0 tl0 br0 bl0 sp0 =>
    if ¬ sp0 then some bs
    else
      match OptQT.to_vec_child tl0 with
      | none => none
      | some vtl =>
        match OptQT.to_vec_child tr0 with
        | none => none
        | some vtr =>
          match OptQT.to_vec_child bl0 with
          | none => none
          | some vbl =>
            match OptQT.to_vec_child br0 with
            | none => none
            | some vbr => some (bs ++ vtl ++ vtr ++ vbl ++ vbr)

/-- One `match`-arm of `QuadTree::to_vec` on a child slot. -/
def OptQT.to_vec_child : OptQT → Option (List Boid)
  | .none => none
  | .some q => q.to_vec
end

mutual
/-- All boundary rectangles stored anywhere in the tree. -/
def QuadTree.rects : QuadTree → List Rectangle
  | .mk _ bd _ tr0 tl0 br0 bl0 _ =>
    bd :: (OptQT.rects_child tl0 ++ OptQT.rects_child tr0 ++
           OptQT.rects_child bl0 ++ OptQT.rects_child br0)

/-- The rectangles of an optional child. -/
def OptQT.rects_child : OptQT → List Rectangle
  | .none => []
  | .some q => q.rects
end

/-- A radius so large that the query circle around `v` reaches every node of
the tree: at least 1, and at least the squared center distance of every stored
rectangle. -/
def QuadTree.big_radius (t : QuadTree) (v : Vertice) : ℚ :=
  (t.rects.map (fun rc =>
    (rc.center_x - (v.x : ℚ)) * (rc.center_x - (v.x : ℚ)) +
    (rc.center_y - (v.y : ℚ)) * (rc.center_y - (v.y : ℚ)))).foldr max 1

/-- The per-tick insertion loop of `World::update` (`src/main.rs:209-241`):
boids are inserted one after the other, the returned flag being discarded. -/
def QuadTree.insert_all : QuadTree → List Boid → Option QuadTree
  | t, [] => some t
  | t, b :: rest =>
    match t.insert b with
    | none => none
    | some (t', _) => t'.insert_all rest

/-- Lift a predicate on trees to the optional-child type. -/
def optqtHolds (P : QuadTree → Prop) : OptQT → Prop
  | .none => True
  | .some q => P q

/-- Single-motive structural induction principle for `QuadTree` (the mutually
defined child type prevents use of the default recursor through tactics). -/
def QuadTree.indPrinciple {P : QuadTree → Prop}
    (h : ∀ cap bd bs tr0 tl0 br0 bl0 sp0, optqtHolds P tr0 → optqtHolds P tl0 →
      optqtHolds P br0 → optqtHolds P bl0 → P (.mk cap bd bs tr0 tl0 br0 bl0 sp0)) :
    (q : QuadTree) → P q
  | .mk cap bd bs tr0 tl0 br0 bl0 sp0 =>
    h cap bd bs tr0 tl0 br0 bl0 sp0
      (match tr0 with | .none => trivial | .some q => QuadTree.indPrinciple h q)
      (match tl0 with | .none => trivial | .some q => QuadTree.indPrinciple h q)
      (match br0 with | .none => trivial | .some q => QuadTree.indPrinciple h q)
      (match bl0 with | .none => trivial | .some q => QuadTree.indPrinciple h q)

/-- Well-formedness invariant maintained by construction and insertion: every
node has capacity at least 1, and a node is split exactly when all four
children are present, in which case the children carry the same capacity and
the quadrant boundaries computed by `QuadTree::split`. -/
inductive WF : QuadTree → Prop where
  | leaf : ∀ cap bd bs, 1 ≤ cap →
      WF (.mk cap bd bs .none .none .none .none false)
  | node : ∀ cap bd bs qtr qtl qbr qbl, 1 ≤ cap →
      WF qtr → WF qtl → WF qbr → WF qbl →
      qtr.capacity = cap → qtl.capacity = cap →
      qbr.capacity = cap → qbl.capacity = cap →
      qtr.boundary = bd.tr_child → qtl.boundary = bd.tl_child →
      qbr.boundary = bd.br_child → qbl.boundary = bd.bl_child →
      WF (.mk cap bd bs (.some qtr) (.some qtl) (.some qbr) (.some qbl) true)

/-- Trees reachable in the program: freshly constructed by `QuadTree::new`
(the program always passes `QUAD_TREE_CAPACITY = 4`; any positive capacity is
allowed here, capacity 0 being excluded because with it an in-bounds insert
never returns) and grown by arbitrary inserts. -/
inductive Reach : QuadTree → Prop where
  | new : ∀ cap bd, 1 ≤ cap → Reach (QuadTree.new cap bd)
  | ins : ∀ t t' b fl, Reach t → t.insert b = some (t', fl) → Reach t'

theorem isqrt_le : ∀ n : ℕ, isqrt n * isqrt n ≤ n
  | 0 => Nat.le_refl 0
  | n + 1 => by
    simp only [isqrt]
    split
    · assumption
    · exact Nat.le_succ_of_le (isqrt_le n)

theorem lt_isqrt_succ : ∀ n : ℕ, n < (isqrt n + 1) * (isqrt n + 1)
  | 0 => Nat.one_pos
  | n + 1 => by
    simp only [isqrt]
    split
    · have h := lt_isqrt_succ n
      nlinarith [lt_isqrt_succ n]
    · omega

theorem le_isqrt {k n : ℕ} : k ≤ isqrt n ↔ k * k ≤ n := by
  constructor
  · intro h
    calc k * k ≤ isqrt n * isqrt n := Nat.mul_le_mul h h
    _ ≤ n := isqrt_le n
  · intro h
    by_contra hlt
    push_neg at hlt
    have h1 : isqrt n + 1 ≤ k := hlt
    have := lt_isqrt_succ n
    nlinarith

theorem isqrt_lt {k n : ℕ} : isqrt n < k ↔ n < k * k := by
  rw [← Nat.not_le, ← Nat.not_le, le_isqrt]

theorem Rectangle.contains_point_iff (r : Rectangle) (x y : ℚ) :
    r.contains_point x y = true ↔
      (r.center_x - r.half_width ≤ x ∧ x ≤ r.center_x + r.half_width ∧
       r.center_y - r.half_height ≤ y ∧ y ≤ r.center_y + r.half_height) := by
  simp [Rectangle.contains_point]

theorem Rectangle.contains_point_eq_false_iff (r : Rectangle) (x y : ℚ) :
    r.contains_point x y = false ↔
      ¬ (r.center_x - r.half_width ≤ x ∧ x ≤ r.center_x + r.half_width ∧
         r.center_y - r.half_height ≤ y ∧ y ≤ r.center_y + r.half_height) := by
  simp [Rectangle.contains_point]

theorem Rectangle.intersects_iff (r : Rectangle) (v : Vertice) (vision_radius : ℚ) :
    r.intersects v vision_radius = true ↔
      (0 ≤ vision_radius ∧
        (r.center_x - (v.x : ℚ)) * (r.center_x - (v.x : ℚ)) +
          (r.center_y - (v.y : ℚ)) * (r.center_y - (v.y : ℚ)) ≤
          vision_radius * vision_radius) := by
  simp [Rectangle.intersects]

attribute [irreducible] Rectangle.contains_point Rectangle.intersects

/-- The four quadrant rectangles of `QuadTree::split` cover their parent: a
point inside the parent is inside at least one quadrant. -/
theorem quadrant_cover {bd : Rectangle} {x y : ℚ}
    (h : bd.contains_point x y = true) :
    bd.tl_child.contains_point x y = true ∨ bd.tr_child.contains_point x y = true ∨
    bd.bl_child.contains_point x y = true ∨ bd.br_child.contains_point x y = true := by
  rw [Rectangle.contains_point_iff] at h
  obtain ⟨h1, h2, h3, h4⟩ := h
  rcases le_or_lt x bd.center_x with hx | hx <;> rcases le_or_lt y bd.center_y with hy | hy
  · refine Or.inr (Or.inr (Or.inl ?_))
    rw [Rectangle.contains_point_iff]
    simp only [Rectangle.bl_child]
    refine ⟨by linarith, by linarith, by linarith, by linarith⟩
  · refine Or.inl ?_
    rw [Rectangle.contains_point_iff]
    simp only [Rectangle.tl_child]
    refine ⟨by linarith, by linarith, by linarith, by linarith⟩
  · refine Or.inr (Or.inr (Or.inr ?_))
    rw [Rectangle.contains_point_iff]
    simp only [Rectangle.br_child]
    refine ⟨by linarith, by linarith, by linarith, by linarith⟩
  · refine Or.inr (Or.inl ?_)
    rw [Rectangle.contains_point_iff]
    simp only [Rectangle.tr_child]
    refine ⟨by linarith, by linarith, by linarith, by linarith⟩

/-- An insert whose target point is outside the node boundary returns `false`
and leaves the tree untouched (the first branch of `QuadTree::insert`). -/
theorem QuadTree.insert_not_contains {t : QuadTree} {b : Boid}
    (h : t.boundary.contains_point (b.vertice.x : ℚ) (b.vertice.y : ℚ) = false) :
    t.insert b = some (t, false) := by
  cases t with
  | mk cap bd bs tr0 tl0 br0 bl0 sp0 =>
    simp only [QuadTree.boundary] at h
    simp [QuadTree.insert, h]

theorem fresh_leaf_after_shape {cap : ℕ} {rc : Rectangle} {b : Boid}
    {r : QuadTree × Bool} (h : fresh_leaf_after cap rc b = some r) :
    (r.2 = true ∧ rc.contains_point (b.vertice.x : ℚ) (b.vertice.y : ℚ) = true ∧
      r.1 = .mk cap rc [b] .none .none .none .none false) ∨
    (r.2 = false ∧ rc.contains_point (b.vertice.x : ℚ) (b.vertice.y : ℚ) = false ∧
      r.1 = QuadTree.new cap rc) := by
  unfold fresh_leaf_after at h
  split at h
  · split at h
    · exact absurd h (by simp)
    · cases h
      left
      refine ⟨rfl, by assumption, rfl⟩
  · cases h
    right
    refine ⟨rfl, by simp_all, rfl⟩

/-- `fresh_split_insert` always produces a split node with the same capacity,
boundary and stored boids, and four present children. -/
theorem fresh_split_insert_shape {cap : ℕ} {bd : Rectangle} {bs : List Boid}
    {b : Boid} {t' : QuadTree} {fl : Bool}
    (h : fresh_split_insert cap bd bs b = some (t', fl)) :
    ∃ ctr ctl cbr cbl, t' = .mk cap bd bs (.some ctr) (.some ctl) (.some cbr)
      (.some cbl) true := by
  unfold fresh_split_insert at h
  split at h
  · exact absurd h (by simp)
  next rtl heq =>
    split at h
    · cases h
      exact ⟨_, _, _, _, rfl⟩
    · split at h
      · exact absurd h (by simp)
      next rtr heq2 =>
        split at h
        · cases h
          exact ⟨_, _, _, _, rfl⟩
        · split at h
          · exact absurd h (by simp)
          next rbl heq3 =>
            split at h
            · cases h
              exact ⟨_, _, _, _, rfl⟩
            · split at h
              · exact absurd h (by simp)
              next rbr heq4 =>
                cases h
                exact ⟨_, _, _, _, rfl⟩

/-- `QuadTree::insert` never changes a node's capacity or boundary, and never
clears the `splitted` flag. -/
theorem QuadTree.insert_shape {t : QuadTree} {b : Boid} {t' : QuadTree} {fl : Bool}
    (h : t.insert b = some (t', fl)) :
    t'.capacity = t.capacity ∧ t'.boundary = t.boundary ∧
      (t.splitted = true → t'.splitted = true) := by
  cases t with
  | mk cap bd bs tr0 tl0 br0 bl0 sp0 =>
    simp only [QuadTree.insert] at h
    repeat' split at h
    all_goals first
      | (simp only [Option.some.injEq, Prod.mk.injEq] at h
         obtain ⟨rfl, rfl⟩ := h
         exact ⟨rfl, rfl, fun hs => hs⟩)
      | (obtain ⟨ctr, ctl, cbr, cbl, rfl⟩ := fresh_split_insert_shape h
         exact ⟨rfl, rfl, fun hs => rfl⟩)
      | simp at h

/-- When the insert target lies inside the parent boundary, the split-then-try
sequence cannot report `false`: some fresh quadrant leaf accepts. -/
theorem fresh_split_insert_flag {cap : ℕ} {bd : Rectangle} {bs : List Boid}
    {b : Boid} {t' : QuadTree} {fl : Bool}
    (hc : bd.contains_point (b.vertice.x : ℚ) (b.vertice.y : ℚ) = true)
    (h : fresh_split_insert cap bd bs b = some (t', fl)) : fl = true := by
  unfold fresh_split_insert at h
  split at h
  · exact absurd h (by simp)
  next rtl heq1 =>
    split at h
    · simp only [Option.some.injEq, Prod.mk.injEq] at h
      exact h.2.symm
    next hf1 =>
      split at h
      · exact absurd h (by simp)
      next rtr heq2 =>
        split at h
        · simp only [Option.some.injEq, Prod.mk.injEq] at h
          exact h.2.symm
        next hf2 =>
          split at h
          · exact absurd h (by simp)
          next rbl heq3 =>
            split at h
            · simp only [Option.some.injEq, Prod.mk.injEq] at h
              exact h.2.symm
            next hf3 =>
              split at h
              · exact absurd h (by simp)
              next rbr heq4 =>
                simp only [Option.some.injEq, Prod.mk.injEq] at h
                by_contra hfalse
                have hbr : rbr.2 = false := by
                  rw [h.2]
                  cases fl
                  · rfl
                  · exact absurd rfl hfalse
                rcases fresh_leaf_after_shape heq1 with ⟨ht, _, _⟩ | ⟨_, hnc1, _⟩
                · exact hf1 ht
                · rcases fresh_leaf_after_shape heq2 with ⟨ht, _, _⟩ | ⟨_, hnc2, _⟩
                  · exact hf2 ht
                  · rcases fresh_leaf_after_shape heq3 with ⟨ht, _, _⟩ | ⟨_, hnc3, _⟩
                    · exact hf3 ht
                    · rcases fresh_leaf_after_shape heq4 with ⟨ht, _, _⟩ | ⟨_, hnc4, _⟩
                      · exact hfalse (h.2 ▸ ht)
                      · rcases quadrant_cover hc with hq | hq | hq | hq <;> simp_all

/-- With positive capacity and an in-bounds target, the split-then-try sequence
returns normally. -/
theorem fresh_split_insert_isSome {cap : ℕ} {bd : Rectangle} {bs : List Boid}
    {b : Boid} (hcap : 1 ≤ cap)
    (hc : bd.contains_point (b.vertice.x : ℚ) (b.vertice.y : ℚ) = true) :
    (fresh_split_insert cap bd bs b).isSome = true := by
  have hcap0 : cap ≠ 0 := by omega
  rcases Bool.eq_false_or_eq_true
      (bd.tl_child.contains_point (b.vertice.x : ℚ) (b.vertice.y : ℚ)) with htl | htl
  · simp [fresh_split_insert, fresh_leaf_after, htl, hcap0]
  · rcases Bool.eq_false_or_eq_true
        (bd.tr_child.contains_point (b.vertice.x : ℚ) (b.vertice.y : ℚ)) with htr | htr
    · simp [fresh_split_insert, fresh_leaf_after, htl, htr, hcap0]
    · rcases Bool.eq_false_or_eq_true
          (bd.bl_child.contains_point (b.vertice.x : ℚ) (b.vertice.y : ℚ)) with hbl | hbl
      · simp [fresh_split_insert, fresh_leaf_after, htl, htr, hbl, hcap0]
      · rcases Bool.eq_false_or_eq_true
            (bd.br_child.contains_point (b.vertice.x : ℚ) (b.vertice.y : ℚ)) with hbr | hbr
        · simp [fresh_split_insert, fresh_leaf_after, htl, htr, hbl, hbr, hcap0]
        · rcases quadrant_cover hc with hq | hq | hq | hq <;> simp_all

/-- With positive capacity and an in-bounds target, the split-then-try sequence
returns normally with `true`. -/
theorem fresh_split_insert_success {cap : ℕ} {bd : Rectangle} {bs : List Boid}
    {b : Boid} (hcap : 1 ≤ cap)
    (hc : bd.contains_point (b.vertice.x : ℚ) (b.vertice.y : ℚ) = true) :
    ∃ t', fresh_split_insert cap bd bs b = some (t', true) := by
  obtain ⟨r, hr⟩ := Option.isSome_iff_exists.mp (fresh_split_insert_isSome hcap hc)
  have hfl : r.2 = true := fresh_split_insert_flag hc hr
  exact ⟨r.1, by rw [hr, ← hfl]⟩

/-- If an insert into an optional child returns `false` and, inductively, every
`false` insert into the underlying subtree leaves it unchanged, then the child
slot is unchanged. -/
theorem insert_child_false_eq {c : OptQT} {b : Boid} {r : OptQT × Bool}
    (hP : optqtHolds (fun q => ∀ b' t', q.insert b' = some (t', false) → t' = q) c)
    (h : c.insert_child b = some r) (hf : r.2 = false) : r.1 = c := by
  cases c with
  | none => exact absurd h (by simp [OptQT.insert_child])
  | some q =>
    unfold OptQT.insert_child at h
    split at h
    · exact absurd h (by simp)
    next res heq =>
      simp only [Option.some.injEq] at h
      rw [← h] at hf ⊢
      simp only at hf ⊢
      have : res.1 = q := hP b res.1 (by rw [← hf]; exact heq)
      rw [this]

/-- A `false` return from `QuadTree::insert` leaves the tree unchanged. -/
theorem QuadTree.insert_false_eq : ∀ (t : QuadTree) {b : Boid} {t' : QuadTree},
    t.insert b = some (t', false) → t' = t := by
  intro t
  induction t using QuadTree.indPrinciple with
  | h cap bd bs tr0 tl0 br0 bl0 sp0 ihtr ihtl ihbr ihbl =>
    intro b t' h
    simp only [QuadTree.insert] at h
    split at h
    · simp only [Option.some.injEq, Prod.mk.injEq] at h
      exact h.1.symm
    · split at h
      · exact absurd h (by simp)
      · split at h
        · split at h
          · exact absurd h (by simp)
          next rtl heq1 =>
            split at h
            · exact absurd h (by simp)
            next hf1 =>
              split at h
              · exact absurd h (by simp)
              next rtr heq2 =>
                split at h
                · exact absurd h (by simp)
                next hf2 =>
                  split at h
                  · exact absurd h (by simp)
                  next rbl heq3 =>
                    split at h
                    · exact absurd h (by simp)
                    next hf3 =>
                      split at h
                      · exact absurd h (by simp)
                      next rbr heq4 =>
                        simp only [Option.some.injEq, Prod.mk.injEq] at h
                        obtain ⟨hmk, hflag⟩ := h
                        have e1 : rtl.1 = tl0 :=
                          insert_child_false_eq ihtl heq1
                            (by revert hf1; cases rtl.2 <;> simp)
                        have e2 : rtr.1 = tr0 :=
                          insert_child_false_eq ihtr heq2
                            (by revert hf2; cases rtr.2 <;> simp)
                        have e3 : rbl.1 = bl0 :=
                          insert_child_false_eq ihbl heq3
                            (by revert hf3; cases rbl.2 <;> simp)
                        have e4 : rbr.1 = br0 :=
                          insert_child_false_eq ihbr heq4 hflag
                        rw [← hmk, e1, e2, e3, e4]
        · next hnc _ hsp =>
            have hc : bd.contains_point (b.vertice.x : ℚ) (b.vertice.y : ℚ) = true := by
              revert hnc
              cases bd.contains_point (b.vertice.x : ℚ) (b.vertice.y : ℚ) <;> simp
            exact absurd (fresh_split_insert_flag hc h) (by simp)

theorem bool_eq_false {x : Bool} (h : ¬ x = true) : x = false := by
  cases x
  · rfl
  · exact absurd rfl h

/-- Inserting into a well-formed tree always returns normally (no `panic!`, no
diverging recursion). -/
theorem QuadTree.insert_isSome {t : QuadTree} (hwf : WF t) : ∀ (b : Boid),
    (t.insert b).isSome = true := by
  induction hwf with
  | leaf cap bd bs hcap =>
    intro b
    rcases Bool.eq_false_or_eq_true
        (bd.contains_point (b.vertice.x : ℚ) (b.vertice.y : ℚ)) with hc | hc
    · by_cases hlen : bs.length < cap
      · simp [QuadTree.insert, hc, hlen]
      · have := @fresh_split_insert_isSome cap bd bs _ hcap hc
        simp [QuadTree.insert, hc, hlen, this]
    · simp [QuadTree.insert, hc]
  | node cap bd bs qtr qtl qbr qbl hcap hwtr hwtl hwbr hwbl hctr hctl hcbr hcbl
      hbtr hbtl hbbr hbbl ihtr ihtl ihbr ihbl =>
    intro b
    rcases Bool.eq_false_or_eq_true
        (bd.contains_point (b.vertice.x : ℚ) (b.vertice.y : ℚ)) with hc | hc
    swap
    · simp [QuadTree.insert, hc]
    · by_cases hlen : bs.length < cap
      · simp [QuadTree.insert, hc, hlen]
      · obtain ⟨rtl, h1⟩ := Option.isSome_iff_exists.mp (ihtl b)
        obtain ⟨rtr, h2⟩ := Option.isSome_iff_exists.mp (ihtr b)
        obtain ⟨rbl, h3⟩ := Option.isSome_iff_exists.mp (ihbl b)
        obtain ⟨rbr, h4⟩ := Option.isSome_iff_exists.mp (ihbr b)
        rcases Bool.eq_false_or_eq_true rtl.2 with hf1 | hf1
        · simp [QuadTree.insert, hc, hlen, OptQT.insert_child, h1, hf1]
        · rcases Bool.eq_false_or_eq_true rtr.2 with hf2 | hf2
          · simp [QuadTree.insert, hc, hlen, OptQT.insert_child, h1, h2, hf1, hf2]
          · rcases Bool.eq_false_or_eq_true rbl.2 with hf3 | hf3
            · simp [QuadTree.insert, hc, hlen, OptQT.insert_child, h1, h2, h3,
                hf1, hf2, hf3]
            · simp [QuadTree.insert, hc, hlen, OptQT.insert_child, h1, h2, h3, h4,
                hf1, hf2, hf3]

theorem insert_child_some_elim {q : QuadTree} {b : Boid} {r : OptQT × Bool}
    (h : (OptQT.some q).insert_child b = some r) :
    ∃ res, q.insert b = some res ∧ r = (OptQT.some res.1, res.2) := by
  unfold OptQT.insert_child at h
  split at h
  · exact absurd h (by simp)
  next res heq =>
    simp only [Option.some.injEq] at h
    exact ⟨res, heq, h.symm⟩

/-- Inserting an in-bounds boid into a well-formed tree reports `true`. -/
theorem QuadTree.insert_flag {t : QuadTree} (hwf : WF t) : ∀ {b : Boid}
    {t' : QuadTree} {fl : Bool}, t.insert b = some (t', fl) →
    t.boundary.contains_point (b.vertice.x : ℚ) (b.vertice.y : ℚ) = true →
    fl = true := by
  induction hwf with
  | leaf cap bd bs hcap =>
    intro b t' fl h hc
    simp only [QuadTree.boundary] at hc
    simp only [QuadTree.insert] at h
    split at h
    next hcond => exact absurd hc hcond
    next hcond =>
      split at h
      · simp only [Option.some.injEq, Prod.mk.injEq] at h
        exact h.2.symm
      · split at h
        next hsp => exact absurd hsp (by simp)
        next hsp => exact fresh_split_insert_flag hc h
  | node cap bd bs qtr qtl qbr qbl hcap hwtr hwtl hwbr hwbl hctr hctl hcbr hcbl
      hbtr hbtl hbbr hbbl ihtr ihtl ihbr ihbl =>
    intro b t' fl h hc
    simp only [QuadTree.boundary] at hc
    simp only [QuadTree.insert] at h
    split at h
    next hcond => exact absurd hc hcond
    next hcond =>
      split at h
      · simp only [Option.some.injEq, Prod.mk.injEq] at h
        exact h.2.symm
      · split at h
        swap
        next hsp => exact absurd trivial hsp
        · split at h
          · exact absurd h (by simp)
          next rtl heq1 =>
            split at h
            · simp only [Option.some.injEq, Prod.mk.injEq] at h
              exact h.2.symm
            next hf1 =>
              split at h
              · exact absurd h (by simp)
              next rtr heq2 =>
                split at h
                · simp only [Option.some.injEq, Prod.mk.injEq] at h
                  exact h.2.symm
                next hf2 =>
                  split at h
                  · exact absurd h (by simp)
                  next rbl heq3 =>
                    split at h
                    · simp only [Option.some.injEq, Prod.mk.injEq] at h
                      exact h.2.symm
                    next hf3 =>
                      split at h
                      · exact absurd h (by simp)
                      next rbr heq4 =>
                        simp only [Option.some.injEq, Prod.mk.injEq] at h
                        obtain ⟨res1, hins1, hr1⟩ := insert_child_some_elim heq1
                        obtain ⟨res2, hins2, hr2⟩ := insert_child_some_elim heq2
                        obtain ⟨res3, hins3, hr3⟩ := insert_child_some_elim heq3
                        obtain ⟨res4, hins4, hr4⟩ := insert_child_some_elim heq4
                        rcases quadrant_cover hc with hq | hq | hq | hq
                        · exact absurd (ihtl hins1 (by rw [hbtl]; exact hq))
                            (by rw [hr1] at hf1; simpa using hf1)
                        · exact absurd (ihtr hins2 (by rw [hbtr]; exact hq))
                            (by rw [hr2] at hf2; simpa using hf2)
                        · exact absurd (ihbl hins3 (by rw [hbbl]; exact hq))
                            (by rw [hr3] at hf3; simpa using hf3)
                        · rw [← h.2, hr4]
                          exact ihbr hins4 (by rw [hbbr]; exact hq)

/-- The node built by the split-then-try sequence is well-formed. -/
theorem fresh_split_insert_WF {cap : ℕ} {bd : Rectangle} {bs : List Boid}
    {b : Boid} {t' : QuadTree} {fl : Bool} (hcap : 1 ≤ cap)
    (h : fresh_split_insert cap bd bs b = some (t', fl)) : WF t' := by
  have hleaf : ∀ rc : Rectangle, WF (QuadTree.new cap rc) := fun rc => WF.leaf _ _ _ hcap
  have hfla : ∀ {rc : Rectangle} {r : QuadTree × Bool},
      fresh_leaf_after cap rc b = some r →
      WF r.1 ∧ r.1.capacity = cap ∧ r.1.boundary = rc := by
    intro rc r hr
    rcases fresh_leaf_after_shape hr with ⟨_, _, hre⟩ | ⟨_, _, hre⟩
    · rw [hre]
      exact ⟨WF.leaf _ _ _ hcap, rfl, rfl⟩
    · rw [hre]
      exact ⟨WF.leaf _ _ _ hcap, rfl, rfl⟩
  unfold fresh_split_insert at h
  split at h
  · exact absurd h (by simp)
  next rtl heq1 =>
    obtain ⟨hw1, hc1, hb1⟩ := hfla heq1
    split at h
    · simp only [Option.some.injEq, Prod.mk.injEq] at h
      rw [← h.1]
      exact WF.node _ _ _ _ _ _ _ hcap (hleaf _) hw1 (hleaf _) (hleaf _)
        rfl hc1 rfl rfl rfl hb1 rfl rfl
    · split at h
      · exact absurd h (by simp)
      next rtr heq2 =>
        obtain ⟨hw2, hc2, hb2⟩ := hfla heq2
        split at h
        · simp only [Option.some.injEq, Prod.mk.injEq] at h
          rw [← h.1]
          exact WF.node _ _ _ _ _ _ _ hcap hw2 hw1 (hleaf _) (hleaf _)
            hc2 hc1 rfl rfl hb2 hb1 rfl rfl
        · split at h
          · exact absurd h (by simp)
          next rbl heq3 =>
            obtain ⟨hw3, hc3, hb3⟩ := hfla heq3
            split at h
            · simp only [Option.some.injEq, Prod.mk.injEq] at h
              rw [← h.1]
              exact WF.node _ _ _ _ _ _ _ hcap hw2 hw1 (hleaf _) hw3
                hc2 hc1 rfl hc3 hb2 hb1 rfl hb3
            · split at h
              · exact absurd h (by simp)
              next rbr heq4 =>
                obtain ⟨hw4, hc4, hb4⟩ := hfla heq4
                simp only [Option.some.injEq, Prod.mk.injEq] at h
                rw [← h.1]
                exact WF.node _ _ _ _ _ _ _ hcap hw2 hw1 hw4 hw3
                  hc2 hc1 hc4 hc3 hb2 hb1 hb4 hb3

/-- `QuadTree::insert` preserves well-formedness. -/
theorem QuadTree.insert_WF {t : QuadTree} (hwf : WF t) : ∀ {b : Boid}
    {t' : QuadTree} {fl : Bool}, t.insert b = some (t', fl) → WF t' := by
  induction hwf with
  | leaf cap bd bs hcap =>
    intro b t' fl h
    simp only [QuadTree.insert] at h
    split at h
    · simp only [Option.some.injEq, Prod.mk.injEq] at h
      rw [← h.1]
      exact WF.leaf _ _ _ hcap
    · split at h
      · simp only [Option.some.injEq, Prod.mk.injEq] at h
        rw [← h.1]
        exact WF.leaf _ _ _ hcap
      · split at h
        next hsp => exact absurd hsp (by simp)
        next hsp => exact fresh_split_insert_WF hcap h
  | node cap bd bs qtr qtl qbr qbl hcap hwtr hwtl hwbr hwbl hctr hctl hcbr hcbl
      hbtr hbtl hbbr hbbl ihtr ihtl ihbr ihbl =>
    intro b t' fl h
    simp only [QuadTree.insert] at h
    split at h
    · simp only [Option.some.injEq, Prod.mk.injEq] at h
      rw [← h.1]
      exact WF.node _ _ _ _ _ _ _ hcap hwtr hwtl hwbr hwbl hctr hctl hcbr hcbl
        hbtr hbtl hbbr hbbl
    · split at h
      · simp only [Option.some.injEq, Prod.mk.injEq] at h
        rw [← h.1]
        exact WF.node _ _ _ _ _ _ _ hcap hwtr hwtl hwbr hwbl hctr hctl hcbr hcbl
          hbtr hbtl hbbr hbbl
      · split at h
        swap
        next hsp => exact absurd trivial hsp
        · split at h
          · exact absurd h (by simp)
          next rtl heq1 =>
            obtain ⟨res1, hins1, hr1⟩ := insert_child_some_elim heq1
            have hw1 : WF res1.1 := ihtl hins1
            obtain ⟨hc1, hb1, _⟩ := QuadTree.insert_shape hins1
            split at h
            · simp only [Option.some.injEq, Prod.mk.injEq] at h
              rw [← h.1, hr1]
              exact WF.node _ _ _ _ _ _ _ hcap hwtr hw1 hwbr hwbl hctr
                (hc1.trans hctl) hcbr hcbl hbtr (hb1.trans hbtl) hbbr hbbl
            next hf1 =>
              split at h
              · exact absurd h (by simp)
              next rtr heq2 =>
                obtain ⟨res2, hins2, hr2⟩ := insert_child_some_elim heq2
                have hw2 : WF res2.1 := ihtr hins2
                obtain ⟨hc2, hb2, _⟩ := QuadTree.insert_shape hins2
                split at h
                · simp only [Option.some.injEq, Prod.mk.injEq] at h
                  rw [← h.1, hr1, hr2]
                  exact WF.node _ _ _ _ _ _ _ hcap hw2 hw1 hwbr hwbl
                    (hc2.trans hctr) (hc1.trans hctl) hcbr hcbl
                    (hb2.trans hbtr) (hb1.trans hbtl) hbbr hbbl
                next hf2 =>
                  split at h
                  · exact absurd h (by simp)
                  next rbl heq3 =>
                    obtain ⟨res3, hins3, hr3⟩ := insert_child_some_elim heq3
                    have hw3 : WF res3.1 := ihbl hins3
                    obtain ⟨hc3, hb3, _⟩ := QuadTree.insert_shape hins3
                    split at h
                    · simp only [Option.some.injEq, Prod.mk.injEq] at h
                      rw [← h.1, hr1, hr2, hr3]
                      exact WF.node _ _ _ _ _ _ _ hcap hw2 hw1 hwbr hw3
                        (hc2.trans hctr) (hc1.trans hctl) hcbr (hc3.trans hcbl)
                        (hb2.trans hbtr) (hb1.trans hbtl) hbbr (hb3.trans hbbl)
                    next hf3 =>
                      split at h
                      · exact absurd h (by simp)
                      next rbr heq4 =>
                        obtain ⟨res4, hins4, hr4⟩ := insert_child_some_elim heq4
                        have hw4 : WF res4.1 := ihbr hins4
                        obtain ⟨hc4, hb4, _⟩ := QuadTree.insert_shape hins4
                        simp only [Option.some.injEq, Prod.mk.injEq] at h
                        rw [← h.1, hr1, hr2, hr3, hr4]
                        exact WF.node _ _ _ _ _ _ _ hcap hw2 hw1 hw4 hw3
                          (hc2.trans hctr) (hc1.trans hctl) (hc4.trans hcbr)
                          (hc3.trans hcbl) (hb2.trans hbtr) (hb1.trans hbtl)
                          (hb4.trans hbbr) (hb3.trans hbbl)

/-- Every tree reachable by construction and insertion is well-formed. -/
theorem Reach_WF {t : QuadTree} (hr : Reach t) : WF t := by
  induction hr with
  | new cap bd hcap => exact WF.leaf _ _ _ hcap
  | ins t t' b fl _ hins ih => exact QuadTree.insert_WF ih hins

theorem to_vec_leaf {cap : ℕ} {bd : Rectangle} {bs : List Boid} :
    (QuadTree.mk cap bd bs .none .none .none .none false).to_vec = some bs := by
  simp [QuadTree.to_vec]

theorem to_vec_node {cap : ℕ} {bd : Rectangle} {bs : List Boid}
    {qtr qtl qbr qbl : QuadTree} {vtl vtr vbl vbr : List Boid}
    (htl : qtl.to_vec = some vtl) (htr : qtr.to_vec = some vtr)
    (hbl : qbl.to_vec = some vbl) (hbr : qbr.to_vec = some vbr) :
    (QuadTree.mk cap bd bs (.some qtr) (.some qtl) (.some qbr) (.some qbl)
      true).to_vec = some (bs ++ vtl ++ vtr ++ vbl ++ vbr) := by
  simp [QuadTree.to_vec, OptQT.to_vec_child, htl, htr, hbl, hbr]

/-- Flattening a well-formed tree returns normally. -/
theorem QuadTree.to_vec_isSome {t : QuadTree} (hwf : WF t) :
    ∃ v, t.to_vec = some v := by
  induction hwf with
  | leaf cap bd bs hcap => exact ⟨bs, to_vec_leaf⟩
  | node cap bd bs qtr qtl qbr qbl hcap hwtr hwtl hwbr hwbl hctr hctl hcbr hcbl
      hbtr hbtl hbbr hbbl ihtr ihtl ihbr ihbl =>
    obtain ⟨vtr, htr⟩ := ihtr
    obtain ⟨vtl, htl⟩ := ihtl
    obtain ⟨vbr, hbr⟩ := ihbr
    obtain ⟨vbl, hbl⟩ := ihbl
    exact ⟨bs ++ vtl ++ vtr ++ vbl ++ vbr, to_vec_node htl htr hbl hbr⟩

/-- A successful split-then-try stores exactly the old boids plus the new one. -/
theorem fresh_split_insert_to_vec {cap : ℕ} {bd : Rectangle} {bs : List Boid}
    {b : Boid} {t' : QuadTree}
    (h : fresh_split_insert cap bd bs b = some (t', true)) :
    t'.to_vec = some (bs ++ [b]) := by
  unfold fresh_split_insert at h
  split at h
  · exact absurd h (by simp)
  next rtl heq1 =>
    split at h
    next hf1 =>
      rcases fresh_leaf_after_shape heq1 with ⟨_, _, hre1⟩ | ⟨hff, _, _⟩
      · simp only [Option.some.injEq, Prod.mk.injEq] at h
        rw [← h.1]
        simp [QuadTree.to_vec, OptQT.to_vec_child, QuadTree.new, hre1]
      · rw [hff] at hf1
        exact absurd hf1 (by simp)
    next hf1 =>
      rcases fresh_leaf_after_shape heq1 with ⟨hft, _, _⟩ | ⟨_, _, hre1⟩
      · exact absurd hft hf1
      · split at h
        · exact absurd h (by simp)
        next rtr heq2 =>
          split at h
          next hf2 =>
            rcases fresh_leaf_after_shape heq2 with ⟨_, _, hre2⟩ | ⟨hff, _, _⟩
            · simp only [Option.some.injEq, Prod.mk.injEq] at h
              rw [← h.1]
              simp [QuadTree.to_vec, OptQT.to_vec_child, QuadTree.new, hre1, hre2]
            · rw [hff] at hf2
              exact absurd hf2 (by simp)
          next hf2 =>
            rcases fresh_leaf_after_shape heq2 with ⟨hft, _, _⟩ | ⟨_, _, hre2⟩
            · exact absurd hft hf2
            · split at h
              · exact absurd h (by simp)
              next rbl heq3 =>
                split at h
                next hf3 =>
                  rcases fresh_leaf_after_shape heq3 with ⟨_, _, hre3⟩ | ⟨hff, _, _⟩
                  · simp only [Option.some.injEq, Prod.mk.injEq] at h
                    rw [← h.1]
                    simp [QuadTree.to_vec, OptQT.to_vec_child, QuadTree.new,
                      hre1, hre2, hre3]
                  · rw [hff] at hf3
                    exact absurd hf3 (by simp)
                next hf3 =>
                  rcases fresh_leaf_after_shape heq3 with ⟨hft, _, _⟩ | ⟨_, _, hre3⟩
                  · exact absurd hft hf3
                  · split at h
                    · exact absurd h (by simp)
                    next rbr heq4 =>
                      simp only [Option.some.injEq, Prod.mk.injEq] at h
                      rcases fresh_leaf_after_shape heq4 with ⟨_, _, hre4⟩ | ⟨hff, _, _⟩
                      · rw [← h.1]
                        simp [QuadTree.to_vec, OptQT.to_vec_child, QuadTree.new,
                          hre1, hre2, hre3, hre4]
                      · rw [hff] at h
                        exact absurd h.2 (by simp)

/-- A successful insert adds exactly the inserted boid to the flattened
contents, up to permutation. -/
theorem QuadTree.insert_to_vec_perm {t : QuadTree} (hwf : WF t) : ∀ {b : Boid}
    {t' : QuadTree}, t.insert b = some (t', true) → ∀ {v v' : List Boid},
    t.to_vec = some v → t'.to_vec = some v' → v'.Perm (b :: v) := by
  induction hwf with
  | leaf cap bd bs hcap =>
    intro b t' h v v' hv hv'
    have hvbs : bs = v := by
      rw [to_vec_leaf] at hv
      exact Option.some.inj hv
    simp only [QuadTree.insert] at h
    split at h
    · simp only [Option.some.injEq, Prod.mk.injEq] at h
      exact absurd h.2 (by simp)
    · split at h
      · simp only [Option.some.injEq, Prod.mk.injEq] at h
        rw [← h.1, to_vec_leaf] at hv'
        have : bs ++ [b] = v' := Option.some.inj hv'
        rw [← this, ← hvbs]
        exact List.perm_append_singleton b bs
      · split at h
        next hsp => exact absurd hsp (by simp)
        next hsp =>
          rw [fresh_split_insert_to_vec h] at hv'
          have : bs ++ [b] = v' := Option.some.inj hv'
          rw [← this, ← hvbs]
          exact List.perm_append_singleton b bs
  | node cap bd bs qtr qtl qbr qbl hcap hwtr hwtl hwbr hwbl hctr hctl hcbr hcbl
      hbtr hbtl hbbr hbbl ihtr ihtl ihbr ihbl =>
    intro b t' h v v' hv hv'
    obtain ⟨vtl0, htl0⟩ := QuadTree.to_vec_isSome hwtl
    obtain ⟨vtr0, htr0⟩ := QuadTree.to_vec_isSome hwtr
    obtain ⟨vbl0, hbl0⟩ := QuadTree.to_vec_isSome hwbl
    obtain ⟨vbr0, hbr0⟩ := QuadTree.to_vec_isSome hwbr
    have hvform : bs ++ vtl0 ++ vtr0 ++ vbl0 ++ vbr0 = v := by
      rw [to_vec_node htl0 htr0 hbl0 hbr0] at hv
      exact Option.some.inj hv
    simp only [QuadTree.insert] at h
    split at h
    · simp only [Option.some.injEq, Prod.mk.injEq] at h
      exact absurd h.2 (by simp)
    · split at h
      · -- push into the node's own list
        simp only [Option.some.injEq, Prod.mk.injEq] at h
        rw [← h.1, to_vec_node htl0 htr0 hbl0 hbr0] at hv'
        have hv'form : (bs ++ [b]) ++ vtl0 ++ vtr0 ++ vbl0 ++ vbr0 = v' :=
          Option.some.inj hv'
        rw [← hv'form, ← hvform]
        have p1 : bs ++ [b] ++ vtl0 ++ vtr0 ++ vbl0 ++ vbr0 =
            bs ++ ([b] ++ (vtl0 ++ vtr0 ++ vbl0 ++ vbr0)) := by
          simp [List.append_assoc]
        have p2 : bs ++ vtl0 ++ vtr0 ++ vbl0 ++ vbr0 =
            bs ++ (vtl0 ++ vtr0 ++ vbl0 ++ vbr0) := by
          simp [List.append_assoc]
        rw [p1, p2]
        exact List.perm_middle
      · split at h
        swap
        next hsp => exact absurd trivial hsp
        · split at h
          · exact absurd h (by simp)
          next rtl heq1 =>
            obtain ⟨res1, hins1, hr1⟩ := insert_child_some_elim heq1
            split at h
            next hf1 =>
              -- top-left child accepted the boid
              have hres1 : res1.2 = true := by rw [hr1] at hf1; simpa using hf1
              have hins1t : qtl.insert b = some (res1.1, true) := by
                rw [show ((res1.1, true) : QuadTree × Bool) = res1 from by rw [← hres1]]
                exact hins1
              obtain ⟨vtl1, htl1⟩ :=
                QuadTree.to_vec_isSome (QuadTree.insert_WF hwtl hins1)
              have perm1 : vtl1.Perm (b :: vtl0) := ihtl hins1t htl0 htl1
              simp only [Option.some.injEq, Prod.mk.injEq] at h
              rw [← h.1] at hv'
              rw [hr1] at hv'
              rw [to_vec_node htl1 htr0 hbl0 hbr0] at hv'
              have hv'form : bs ++ vtl1 ++ vtr0 ++ vbl0 ++ vbr0 = v' :=
                Option.some.inj hv'
              rw [← hv'form, ← hvform]
              have s1 : (bs ++ vtl1).Perm (b :: (bs ++ vtl0)) :=
                (List.Perm.append_left bs perm1).trans List.perm_middle
              have s2 : (bs ++ vtl1 ++ vtr0).Perm (b :: (bs ++ vtl0 ++ vtr0)) :=
                s1.append_right vtr0
              have s3 : (bs ++ vtl1 ++ vtr0 ++ vbl0).Perm
                  (b :: (bs ++ vtl0 ++ vtr0 ++ vbl0)) := s2.append_right vbl0
              exact s3.append_right vbr0
            next hf1 =>
              have hres1 : res1.2 = false := by
                rw [hr1] at hf1
                revert hf1
                cases res1.2 <;> simp
              have hsame1 : res1.1 = qtl := QuadTree.insert_false_eq qtl
                (by rw [show some ((res1.1, false) : QuadTree × Bool) = some res1 from
                  by rw [← hres1]]; exact hins1)
              split at h
              · exact absurd h (by simp)
              next rtr heq2 =>
                obtain ⟨res2, hins2, hr2⟩ := insert_child_some_elim heq2
                split at h
                next hf2 =>
                  -- top-right child accepted the boid
                  have hres2 : res2.2 = true := by rw [hr2] at hf2; simpa using hf2
                  have hins2t : qtr.insert b = some (res2.1, true) := by
                    rw [show ((res2.1, true) : QuadTree × Bool) = res2 from
                      by rw [← hres2]]
                    exact hins2
                  obtain ⟨vtr1, htr1⟩ :=
                    QuadTree.to_vec_isSome (QuadTree.insert_WF hwtr hins2)
                  have perm2 : vtr1.Perm (b :: vtr0) := ihtr hins2t htr0 htr1
                  simp only [Option.some.injEq, Prod.mk.injEq] at h
                  rw [← h.1] at hv'
                  rw [hr1, hr2, hsame1] at hv'
                  rw [to_vec_node htl0 htr1 hbl0 hbr0] at hv'
                  have hv'form : bs ++ vtl0 ++ vtr1 ++ vbl0 ++ vbr0 = v' :=
                    Option.some.inj hv'
                  rw [← hv'form, ← hvform]
                  have s1 : (bs ++ vtl0 ++ vtr1).Perm (b :: (bs ++ vtl0 ++ vtr0)) :=
                    (List.Perm.append_left (bs ++ vtl0) perm2).trans List.perm_middle
                  have s2 : (bs ++ vtl0 ++ vtr1 ++ vbl0).Perm
                      (b :: (bs ++ vtl0 ++ vtr0 ++ vbl0)) := s1.append_right vbl0
                  exact s2.append_right vbr0
                next hf2 =>
                  have hres2 : res2.2 = false := by
                    rw [hr2] at hf2
                    revert hf2
                    cases res2.2 <;> simp
                  have hsame2 : res2.1 = qtr := QuadTree.insert_false_eq qtr
                    (by rw [show some ((res2.1, false) : QuadTree × Bool) = some res2
                      from by rw [← hres2]]; exact hins2)
                  split at h
                  · exact absurd h (by simp)
                  next rbl heq3 =>
                    obtain ⟨res3, hins3, hr3⟩ := insert_child_some_elim heq3
                    split at h
                    next hf3 =>
                      -- bottom-left child accepted the boid
                      have hres3 : res3.2 = true := by rw [hr3] at hf3; simpa using hf3
                      have hins3t : qbl.insert b = some (res3.1, true) := by
                        rw [show ((res3.1, true) : QuadTree × Bool) = res3 from
                          by rw [← hres3]]
                        exact hins3
                      obtain ⟨vbl1, hbl1⟩ :=
                        QuadTree.to_vec_isSome (QuadTree.insert_WF hwbl hins3)
                      have perm3 : vbl1.Perm (b :: vbl0) := ihbl hins3t hbl0 hbl1
                      simp only [Option.some.injEq, Prod.mk.injEq] at h
                      rw [← h.1] at hv'
                      rw [hr1, hr2, hr3, hsame1, hsame2] at hv'
                      rw [to_vec_node htl0 htr0 hbl1 hbr0] at hv'
                      have hv'form : bs ++ vtl0 ++ vtr0 ++ vbl1 ++ vbr0 = v' :=
                        Option.some.inj hv'
                      rw [← hv'form, ← hvform]
                      have s1 : (bs ++ vtl0 ++ vtr0 ++ vbl1).Perm
                          (b :: (bs ++ vtl0 ++ vtr0 ++ vbl0)) :=
                        (List.Perm.append_left (bs ++ vtl0 ++ vtr0) perm3).trans
                          List.perm_middle
                      exact s1.append_right vbr0
                    next hf3 =>
                      have hres3 : res3.2 = false := by
                        rw [hr3] at hf3
                        revert hf3
                        cases res3.2 <;> simp
                      have hsame3 : res3.1 = qbl := QuadTree.insert_false_eq qbl
                        (by rw [show some ((res3.1, false) : QuadTree × Bool) =
                          some res3 from by rw [← hres3]]; exact hins3)
                      split at h
                      · exact absurd h (by simp)
                      next rbr heq4 =>
                        obtain ⟨res4, hins4, hr4⟩ := insert_child_some_elim heq4
                        simp only [Option.some.injEq, Prod.mk.injEq] at h
                        have hres4 : res4.2 = true := by
                          rw [hr4] at h
                          simpa using h.2
                        have hins4t : qbr.insert b = some (res4.1, true) := by
                          rw [show ((res4.1, true) : QuadTree × Bool) = res4 from
                            by rw [← hres4]]
                          exact hins4
                        obtain ⟨vbr1, hbr1⟩ :=
                          QuadTree.to_vec_isSome (QuadTree.insert_WF hwbr hins4)
                        have perm4 : vbr1.Perm (b :: vbr0) := ihbr hins4t hbr0 hbr1
                        rw [← h.1] at hv'
                        rw [hr1, hr2, hr3, hr4, hsame1, hsame2, hsame3] at hv'
                        rw [to_vec_node htl0 htr0 hbl0 hbr1] at hv'
                        have hv'form : bs ++ vtl0 ++ vtr0 ++ vbl0 ++ vbr1 = v' :=
                          Option.some.inj hv'
                        rw [← hv'form, ← hvform]
                        exact (List.Perm.append_left (bs ++ vtl0 ++ vtr0 ++ vbl0)
                          perm4).trans List.perm_middle

theorem query_child_some_elim {c : OptQT} {found : List Boid} {b : Boid}
    {r : ℚ} {res : List Boid} (h : c.query_child found b r = some res) :
    ∃ q, c = .some q ∧ q.query found b r = some res := by
  cases c with
  | none => exact absurd h (by simp [OptQT.query_child])
  | some q => exact ⟨q, rfl, h⟩

/-- `QuadTree::query` only ever appends to its accumulator, and never appends
an element equal to the query boid: the query boid is excluded wherever it is
stored (`other_boid != boid` in the source). -/
theorem QuadTree.query_not_self : ∀ (t : QuadTree) {found : List Boid} {b : Boid}
    {r : ℚ} {res : List Boid}, t.query found b r = some res → b ∉ found →
    b ∉ res := by
  intro t
  induction t using QuadTree.indPrinciple with
  | h cap bd bs tr0 tl0 br0 bl0 sp0 ihtr ihtl ihbr ihbl =>
    intro found b r res h hnf
    have hstep : b ∉ found ++ bs.filter (fun ob => ob ≠ b) := by
      intro hmem
      rcases List.mem_append.mp hmem with hm | hm
      · exact hnf hm
      · have := List.of_mem_filter hm
        simp at this
    simp only [QuadTree.query] at h
    split at h
    · exact (Option.some.inj h) ▸ hnf
    · split at h
      · exact (Option.some.inj h) ▸ hstep
      · split at h
        · exact absurd h (by simp)
        next found2 heq1 =>
          obtain ⟨q1, hc1, hq1⟩ := query_child_some_elim heq1
          have hn2 : b ∉ found2 := by
            rw [hc1] at ihtl
            exact ihtl hq1 hstep
          split at h
          · exact absurd h (by simp)
          next found3 heq2 =>
            obtain ⟨q2, hc2, hq2⟩ := query_child_some_elim heq2
            have hn3 : b ∉ found3 := by
              rw [hc2] at ihtr
              exact ihtr hq2 hn2
            split at h
            · exact absurd h (by simp)
            next found4 heq3 =>
              obtain ⟨q3, hc3, hq3⟩ := query_child_some_elim heq3
              have hn4 : b ∉ found4 := by
                rw [hc3] at ihbl
                exact ihbl hq3 hn3
              obtain ⟨q4, hc4, hq4⟩ := query_child_some_elim h
              rw [hc4] at ihbr
              exact ihbr hq4 hn4

/-- Querying a well-formed tree always returns normally. -/
theorem QuadTree.query_isSome {t : QuadTree} (hwf : WF t) :
    ∀ (found : List Boid) (b : Boid) (r : ℚ),
    ∃ res, t.query found b r = some res := by
  induction hwf with
  | leaf cap bd bs hcap =>
    intro found b r
    by_cases hprune : (¬ bd.intersects b.vertice r = true ∧
        ¬ bd.contains_point (b.vertice.x : ℚ) (b.vertice.y : ℚ) = true)
    · refine ⟨found, ?_⟩
      simp only [QuadTree.query]
      rw [if_pos hprune]
    · refine ⟨found ++ bs.filter (fun ob => ob ≠ b), ?_⟩
      simp only [QuadTree.query]
      rw [if_neg hprune, if_pos (by simp)]
  | node cap bd bs qtr qtl qbr qbl hcap hwtr hwtl hwbr hwbl hctr hctl hcbr hcbl
      hbtr hbtl hbbr hbbl ihtr ihtl ihbr ihbl =>
    intro found b r
    by_cases hprune : (¬ bd.intersects b.vertice r = true ∧
        ¬ bd.contains_point (b.vertice.x : ℚ) (b.vertice.y : ℚ) = true)
    · refine ⟨found, ?_⟩
      simp only [QuadTree.query]
      rw [if_pos hprune]
    · obtain ⟨res1, h1⟩ := ihtl (found ++ bs.filter (fun ob => ob ≠ b)) b r
      obtain ⟨res2, h2⟩ := ihtr res1 b r
      obtain ⟨res3, h3⟩ := ihbl res2 b r
      obtain ⟨res4, h4⟩ := ihbr res3 b r
      refine ⟨res4, ?_⟩
      simp only [QuadTree.query]
      rw [if_neg hprune, if_neg (by simp)]
      simp only [OptQT.query_child, h1, h2, h3, h4]

theorem rects_head {cap : ℕ} {bd : Rectangle} {bs : List Boid}
    {tr0 tl0 br0 bl0 : OptQT} {sp0 : Bool} :
    bd ∈ (QuadTree.mk cap bd bs tr0 tl0 br0 bl0 sp0).rects := by
  simp [QuadTree.rects]

theorem rects_child_mem {cap : ℕ} {bd : Rectangle} {bs : List Boid}
    {qtr qtl qbr qbl : QuadTree} {sp0 : Bool} {rc : Rectangle} :
    (rc ∈ qtl.rects ∨ rc ∈ qtr.rects ∨ rc ∈ qbl.rects ∨ rc ∈ qbr.rects) →
    rc ∈ (QuadTree.mk cap bd bs (.some qtr) (.some qtl) (.some qbr) (.some qbl)
      sp0).rects := by
  intro h
  simp only [QuadTree.rects, OptQT.rects_child, List.mem_cons, List.mem_append]
  tauto

/-- When the query circle reaches every node, `QuadTree::query` appends exactly
the flattened contents minus the query boid to the accumulator. -/
theorem QuadTree.query_collect {t : QuadTree} (hwf : WF t) : ∀ {b : Boid} {r : ℚ},
    (∀ rc ∈ t.rects, rc.intersects b.vertice r = true) →
    ∀ {tv : List Boid}, t.to_vec = some tv → ∀ (found : List Boid),
    t.query found b r = some (found ++ tv.filter (fun ob => ob ≠ b)) := by
  induction hwf with
  | leaf cap bd bs hcap =>
    intro b r hall tv htv found
    have hbd : bd.intersects b.vertice r = true := hall _ rects_head
    have htv' : bs = tv := Option.some.inj (to_vec_leaf ▸ htv)
    simp only [QuadTree.query]
    rw [if_neg (by simp [hbd]), if_pos (by simp), htv']
  | node cap bd bs qtr qtl qbr qbl hcap hwtr hwtl hwbr hwbl hctr hctl hcbr hcbl
      hbtr hbtl hbbr hbbl ihtr ihtl ihbr ihbl =>
    intro b r hall tv htv found
    have hbd : bd.intersects b.vertice r = true := hall _ rects_head
    obtain ⟨vtl0, htl0⟩ := QuadTree.to_vec_isSome hwtl
    obtain ⟨vtr0, htr0⟩ := QuadTree.to_vec_isSome hwtr
    obtain ⟨vbl0, hbl0⟩ := QuadTree.to_vec_isSome hwbl
    obtain ⟨vbr0, hbr0⟩ := QuadTree.to_vec_isSome hwbr
    have hvform : bs ++ vtl0 ++ vtr0 ++ vbl0 ++ vbr0 = tv := by
      rw [to_vec_node htl0 htr0 hbl0 hbr0] at htv
      exact Option.some.inj htv
    have h1 := ihtl (fun rc hm => hall rc (rects_child_mem (Or.inl hm))) htl0
      (found ++ bs.filter (fun ob => ob ≠ b))
    have h2 := ihtr (fun rc hm => hall rc (rects_child_mem (Or.inr (Or.inl hm)))) htr0
      (found ++ bs.filter (fun ob => ob ≠ b) ++ vtl0.filter (fun ob => ob ≠ b))
    have h3 := ihbl (fun rc hm => hall rc (rects_child_mem (Or.inr (Or.inr (Or.inl hm)))))
      hbl0 (found ++ bs.filter (fun ob => ob ≠ b) ++ vtl0.filter (fun ob => ob ≠ b) ++
        vtr0.filter (fun ob => ob ≠ b))
    have h4 := ihbr (fun rc hm => hall rc (rects_child_mem (Or.inr (Or.inr (Or.inr hm)))))
      hbr0 (found ++ bs.filter (fun ob => ob ≠ b) ++ vtl0.filter (fun ob => ob ≠ b) ++
        vtr0.filter (fun ob => ob ≠ b) ++ vbl0.filter (fun ob => ob ≠ b))
    simp only [QuadTree.query]
    rw [if_neg (by simp [hbd]), if_neg (by simp)]
    simp only [OptQT.query_child, h1, h2, h3, h4]
    rw [← hvform]
    simp [List.filter_append, List.append_assoc]

theorem le_foldr_max {x : ℚ} : ∀ {l : List ℚ} (init : ℚ), x ∈ l →
    x ≤ l.foldr max init := by
  intro l
  induction l with
  | nil => intro init h; exact absurd h (by simp)
  | cons hd tl ih =>
    intro init h
    rcases List.mem_cons.mp h with rfl | hm
    · exact le_max_left _ _
    · exact le_trans (ih init hm) (le_max_right _ _)

theorem init_le_foldr_max : ∀ (l : List ℚ) (init : ℚ), init ≤ l.foldr max init := by
  intro l
  induction l with
  | nil => intro init; exact le_refl _
  | cons hd tl ih => intro init; exact le_trans (ih init) (le_max_right _ _)

/-- Any radius at least `big_radius` makes the center-distance test succeed at
every node of the tree. -/
theorem big_radius_intersects {t : QuadTree} {v : Vertice} {r : ℚ}
    (hr : t.big_radius v ≤ r) : ∀ rc ∈ t.rects, rc.intersects v r = true := by
  intro rc hmem
  have h1 : (1 : ℚ) ≤ t.big_radius v := init_le_foldr_max _ _
  have hsq : (rc.center_x - (v.x : ℚ)) * (rc.center_x - (v.x : ℚ)) +
      (rc.center_y - (v.y : ℚ)) * (rc.center_y - (v.y : ℚ)) ≤ t.big_radius v :=
    le_foldr_max _ (List.mem_map_of_mem _ hmem)
  rw [Rectangle.intersects_iff]
  constructor
  · linarith
  · have hr1 : (1 : ℚ) ≤ r := le_trans h1 hr
    nlinarith [hsq, hr1]

/-- Inserting a list of in-bounds boids into a well-formed tree succeeds and
stores exactly the old contents plus the list, up to permutation. -/
theorem QuadTree.insert_all_perm : ∀ (l : List Boid) (t : QuadTree), WF t →
    (∀ b ∈ l, t.boundary.contains_point (b.vertice.x : ℚ) (b.vertice.y : ℚ) = true) →
    ∀ {v : List Boid}, t.to_vec = some v →
    ∃ t' v', t.insert_all l = some t' ∧ t'.to_vec = some v' ∧ v'.Perm (v ++ l) := by
  intro l
  induction l with
  | nil =>
    intro t hwf _ v hv
    exact ⟨t, v, by simp [QuadTree.insert_all], hv, by simp⟩
  | cons b rest ih =>
    intro t hwf hall v hv
    have hb := hall b (by simp)
    obtain ⟨r, hr⟩ := Option.isSome_iff_exists.mp (QuadTree.insert_isSome hwf b)
    have hfl : r.2 = true := QuadTree.insert_flag hwf hr hb
    have hr' : t.insert b = some (r.1, true) := by
      rw [show ((r.1, true) : QuadTree × Bool) = r from by rw [← hfl]]
      exact hr
    have hwf1 : WF r.1 := QuadTree.insert_WF hwf hr
    obtain ⟨v1, hv1⟩ := QuadTree.to_vec_isSome hwf1
    have perm1 : v1.Perm (b :: v) := QuadTree.insert_to_vec_perm hwf hr' hv hv1
    obtain ⟨hcap, hbd, _⟩ := QuadTree.insert_shape hr
    have hall1 : ∀ b' ∈ rest,
        r.1.boundary.contains_point (b'.vertice.x : ℚ) (b'.vertice.y : ℚ) = true := by
      intro b' hm
      rw [hbd]
      exact hall b' (by simp [hm])
    obtain ⟨t', v', hins, htv, perm2⟩ := ih r.1 hwf1 hall1 hv1
    refine ⟨t', v', ?_, htv, ?_⟩
    · simp [QuadTree.insert_all, hr]
      exact hins
    · exact perm2.trans ((perm1.append_right rest).trans List.perm_middle.symm)

theorem nat_div_add_div_le (A B S : ℕ) (hS : 0 < S) :
    A / S + B / S ≤ (A + B) / S := by
  rw [Nat.le_div_iff_mul_le hS]
  have h1 : A / S * S ≤ A := Nat.div_mul_le_self A S
  have h2 : B / S * S ≤ B := Nat.div_mul_le_self B S
  calc (A / S + B / S) * S = A / S * S + B / S * S := by ring
  _ ≤ A + B := Nat.add_le_add h1 h2

/-- The two rescaled components (floor of `a·n/√S` and `c·n/√S`) have squared
sum at most `n²`: rescaling can only shrink the speed below the target. -/
theorem scale_sq_upper (a c n S : ℕ) (hS : S = a * a + c * c) (hS1 : 1 ≤ S) :
    isqrt (a * a * n * n / S) * isqrt (a * a * n * n / S) +
      isqrt (c * c * n * n / S) * isqrt (c * c * n * n / S) ≤ n * n := by
  have hp := isqrt_le (a * a * n * n / S)
  have hq := isqrt_le (c * c * n * n / S)
  have hsum := nat_div_add_div_le (a * a * n * n) (c * c * n * n) S hS1
  have heq : (a * a * n * n + c * c * n * n) / S = n * n := by
    have h : a * a * n * n + c * c * n * n = S * (n * n) := by rw [hS]; ring
    rw [h, Nat.mul_div_cancel_left _ hS1]
  linarith

theorem scale_component_le (a c n S : ℕ) (hS : S = a * a + c * c) (hS1 : 1 ≤ S) :
    isqrt (a * a * n * n / S) ≤ n := by
  have h0 : a * a * n * n ≤ S * (n * n) := by
    have : a * a ≤ S := by rw [hS]; exact Nat.le_add_right _ _
    calc a * a * n * n = (a * a) * (n * n) := by ring
    _ ≤ S * (n * n) := Nat.mul_le_mul_right _ this
  have h1 : a * a * n * n / S ≤ n * n := by
    calc a * a * n * n / S ≤ S * (n * n) / S := Nat.div_le_div_right h0
    _ = n * n := Nat.mul_div_cancel_left _ hS1
  by_contra hcon
  push_neg at hcon
  have h2 : (n + 1) * (n + 1) ≤ a * a * n * n / S := le_isqrt.mp hcon
  nlinarith

theorem nat_lt_div_succ_mul (A S : ℕ) (hS : 1 ≤ S) : A < S * (A / S + 1) := by
  have h1 := Nat.div_add_mod A S
  have h2 : A % S < S := Nat.mod_lt _ hS
  nlinarith [h1, h2]

set_option maxHeartbeats 1600000 in
/-- The rescaled squared speed exceeds `(n-2)²`: the truncation toward zero of
each component loses less than one unit per axis. -/
theorem scale_sq_lower (a c n S : ℕ) (hS : S = a * a + c * c) (hS1 : 1 ≤ S)
    (hn : 2 ≤ n) :
    (n - 2) * (n - 2) < isqrt (a * a * n * n / S) * isqrt (a * a * n * n / S) +
      isqrt (c * c * n * n / S) * isqrt (c * c * n * n / S) := by
  obtain ⟨m, rfl⟩ : ∃ m, n = m + 2 := ⟨n - 2, by omega⟩
  have hA : a * a * (m + 2) * (m + 2) < S * ((isqrt (a * a * (m + 2) * (m + 2) / S) + 1) *
      (isqrt (a * a * (m + 2) * (m + 2) / S) + 1)) := by
    have h1 : a * a * (m + 2) * (m + 2) / S < (isqrt (a * a * (m + 2) * (m + 2) / S) + 1) *
        (isqrt (a * a * (m + 2) * (m + 2) / S) + 1) := lt_isqrt_succ _
    have h2 : a * a * (m + 2) * (m + 2) < S * (a * a * (m + 2) * (m + 2) / S + 1) :=
      nat_lt_div_succ_mul _ _ hS1
    have h3 : S * (a * a * (m + 2) * (m + 2) / S + 1) ≤
        S * ((isqrt (a * a * (m + 2) * (m + 2) / S) + 1) * (isqrt (a * a * (m + 2) * (m + 2) / S) + 1)) :=
      Nat.mul_le_mul_left _ (Nat.succ_le_of_lt h1)
    exact Nat.lt_of_lt_of_le h2 h3
  have hB : c * c * (m + 2) * (m + 2) < S * ((isqrt (c * c * (m + 2) * (m + 2) / S) + 1) *
      (isqrt (c * c * (m + 2) * (m + 2) / S) + 1)) := by
    have h1 : c * c * (m + 2) * (m + 2) / S < (isqrt (c * c * (m + 2) * (m + 2) / S) + 1) *
        (isqrt (c * c * (m + 2) * (m + 2) / S) + 1) := lt_isqrt_succ _
    have h2 : c * c * (m + 2) * (m + 2) < S * (c * c * (m + 2) * (m + 2) / S + 1) :=
      nat_lt_div_succ_mul _ _ hS1
    have h3 : S * (c * c * (m + 2) * (m + 2) / S + 1) ≤
        S * ((isqrt (c * c * (m + 2) * (m + 2) / S) + 1) * (isqrt (c * c * (m + 2) * (m + 2) / S) + 1)) :=
      Nat.mul_le_mul_left _ (Nat.succ_le_of_lt h1)
    exact Nat.lt_of_lt_of_le h2 h3
  simp only [Nat.add_sub_cancel]
  generalize hgp : isqrt (a * a * (m + 2) * (m + 2) / S) = p at hA ⊢
  generalize hgq : isqrt (c * c * (m + 2) * (m + 2) / S) = q at hB ⊢
  have hsum : a * a * (m + 2) * (m + 2) + c * c * (m + 2) * (m + 2) =
      S * ((m + 2) * (m + 2)) := by rw [hS]; ring
  have hlt : S * ((m + 2) * (m + 2)) < S * ((p + 1) * (p + 1) + (q + 1) * (q + 1)) := by
    calc S * ((m + 2) * (m + 2)) = a * a * (m + 2) * (m + 2) + c * c * (m + 2) * (m + 2) :=
        hsum.symm
    _ < S * ((p + 1) * (p + 1)) + S * ((q + 1) * (q + 1)) := Nat.add_lt_add hA hB
    _ = S * ((p + 1) * (p + 1) + (q + 1) * (q + 1)) := (Nat.mul_add _ _ _).symm
  have hkey : (m + 2) * (m + 2) < (p + 1) * (p + 1) + (q + 1) * (q + 1) :=
    Nat.lt_of_mul_lt_mul_left hlt
  by_contra hcon
  push_neg at hcon
  have hp : p ≤ m := by
    by_contra h
    push_neg at h
    have h2 : (m + 1) * (m + 1) ≤ p * p := Nat.mul_le_mul h h
    nlinarith [h2, hcon]
  have hq : q ≤ m := by
    by_contra h
    push_neg at h
    have h2 : (m + 1) * (m + 1) ≤ q * q := Nat.mul_le_mul h h
    nlinarith [h2, hcon]
  nlinarith [hkey, hcon, hp, hq]

/-- `wrap16` is the identity on values already in the `i16` range. -/
theorem wrap16_eq_self {z : ℤ} (h1 : -32768 ≤ z) (h2 : z ≤ 32767) : wrap16 z = z := by
  unfold wrap16; omega

/-- `sat16` is the identity on values already in the `i16` range. -/
theorem sat16_eq_self {z : ℤ} (h1 : -32768 ≤ z) (h2 : z ≤ 32767) : sat16 z = z := by
  unfold sat16; omega

/-- The zero-velocity re-randomization: `v² + ⌊√(m² - v²)⌋²` lies in
`((m-1)², m²]` for `v ≤ m`. -/
theorem zero_branch_bounds (m v : ℕ) (h1 : 1 ≤ m) (hv : v ≤ m) :
    (m - 1) * (m - 1) < v * v + isqrt (m * m - v * v) * isqrt (m * m - v * v) ∧
      v * v + isqrt (m * m - v * v) * isqrt (m * m - v * v) ≤ m * m := by
  obtain ⟨k, rfl⟩ : ∃ k, m = k + 1 := ⟨m - 1, by omega⟩
  simp only [Nat.add_sub_cancel]
  have hvv : v * v ≤ (k + 1) * (k + 1) := Nat.mul_le_mul hv hv
  have ht1 := isqrt_le ((k + 1) * (k + 1) - v * v)
  have ht2 := lt_isqrt_succ ((k + 1) * (k + 1) - v * v)
  have hsub := Nat.sub_add_cancel hvv
  have htm : isqrt ((k + 1) * (k + 1) - v * v) ≤ k + 1 := by
    by_contra hc
    push_neg at hc
    have h2 : (k + 2) * (k + 2) ≤ isqrt ((k + 1) * (k + 1) - v * v) *
        isqrt ((k + 1) * (k + 1) - v * v) := Nat.mul_le_mul hc hc
    nlinarith [ht1, h2, hsub]
  constructor
  · rcases Nat.lt_or_ge (isqrt ((k + 1) * (k + 1) - v * v)) (k + 1) with hcase | hcase
    · have hck : isqrt ((k + 1) * (k + 1) - v * v) ≤ k := by omega
      nlinarith [ht2, hck, hsub]
    · have heq : isqrt ((k + 1) * (k + 1) - v * v) = k + 1 := le_antisymm htm hcase
      nlinarith [heq, hvv]
  · nlinarith [ht1, hsub]

/-- A rescaled component is at most the target magnitude, assuming only
`a² ≤ S`. -/
theorem scale_component_le2 (a n S : ℕ) (haS : a * a ≤ S) (hS1 : 1 ≤ S) :
    isqrt (a * a * n * n / S) ≤ n := by
  have h0 : a * a * n * n ≤ S * (n * n) := by
    calc a * a * n * n = (a * a) * (n * n) := by ring
    _ ≤ S * (n * n) := Nat.mul_le_mul_right _ haS
  have h1 : a * a * n * n / S ≤ n * n := by
    calc a * a * n * n / S ≤ S * (n * n) / S := Nat.div_le_div_right h0
    _ = n * n := Nat.mul_div_cancel_left _ hS1
  by_contra hcon
  push_neg at hcon
  have h2 : (n + 1) * (n + 1) ≤ a * a * n * n / S := le_isqrt.mp hcon
  nlinarith

/-- The square of `scale_cast` equals the squared truncated rescale, computed
in `ℕ`: the sign factor squares away and the `i16` saturation is inactive
because the component is bounded by `t ≤ 32767`. -/
theorem scale_cast_sq (v t s : ℤ) (ht1 : 1 ≤ t) (ht2 : t ≤ 32767) (hs : 1 ≤ s)
    (hvv : v * v ≤ s) :
    scale_cast v t s * scale_cast v t s =
      ((isqrt (v.natAbs * v.natAbs * t.toNat * t.toNat / s.toNat) *
        isqrt (v.natAbs * v.natAbs * t.toNat * t.toNat / s.toNat) : ℕ) : ℤ) := by
  have htn : ((t.toNat : ℕ) : ℤ) = t := Int.toNat_of_nonneg (by omega)
  have hvn : ((v.natAbs : ℕ) : ℤ) * ((v.natAbs : ℕ) : ℤ) = v * v := Int.natAbs_mul_self' v
  have hargs : (v * v * t * t).toNat = v.natAbs * v.natAbs * t.toNat * t.toNat := by
    have h1 : v * v * t * t = ((v.natAbs * v.natAbs * t.toNat * t.toNat : ℕ) : ℤ) := by
      push_cast
      rw [htn, abs_mul_abs_self]
    rw [h1, Int.toNat_natCast]
  have haS : v.natAbs * v.natAbs ≤ s.toNat := by
    have h2 : ((s.toNat : ℕ) : ℤ) = s := Int.toNat_of_nonneg (by omega)
    have h3 : ((v.natAbs * v.natAbs : ℕ) : ℤ) ≤ ((s.toNat : ℕ) : ℤ) := by
      push_cast
      rw [abs_mul_abs_self, h2]
      exact hvv
    exact_mod_cast h3
  have hS1 : 1 ≤ s.toNat := by omega
  have hE : isqrt (v.natAbs * v.natAbs * t.toNat * t.toNat / s.toNat) ≤ t.toNat :=
    scale_component_le2 _ _ _ haS hS1
  have hE32 : isqrt (v.natAbs * v.natAbs * t.toNat * t.toNat / s.toNat) ≤ 32767 := by omega
  have hsig : (v * t).sign = -1 ∨ (v * t).sign = 0 ∨ (v * t).sign = 1 := by
    rcases Int.lt_trichotomy (v * t) 0 with h | h | h
    · exact Or.inl (Int.sign_eq_neg_one_of_neg h)
    · exact Or.inr (Or.inl (by rw [h]; rfl))
    · exact Or.inr (Or.inr (Int.sign_eq_one_of_pos h))
  rw [scale_cast, hargs]
  rcases hsig with h | h | h
  · rw [h, sat16_eq_self (by omega) (by omega)]
    push_cast
    ring
  · have hvt : v * t = 0 := Int.sign_eq_zero_iff_zero.mp h
    have hv0 : v = 0 := by
      rcases mul_eq_zero.mp hvt with h' | h'
      · exact h'
      · omega
    rw [h, hv0]
    simp [isqrt, sat16]
  · rw [h, sat16_eq_self (by omega) (by omega)]
    push_cast
    ring

/-- Rescaling both components to target magnitude `t` puts the squared speed
in `((t-2)², t²]`. -/
theorem scale_pair_bounds (vx vy t s : ℤ) (ht1 : 2 ≤ t) (ht2 : t ≤ 32767)
    (hs1 : 1 ≤ s) (hseq : s = vx * vx + vy * vy) :
    (t - 2) * (t - 2) < scale_cast vx t s * scale_cast vx t s +
        scale_cast vy t s * scale_cast vy t s ∧
      scale_cast vx t s * scale_cast vx t s +
        scale_cast vy t s * scale_cast vy t s ≤ t * t := by
  have hx2 : (0 : ℤ) ≤ vx * vx := mul_self_nonneg vx
  have hy2 : (0 : ℤ) ≤ vy * vy := mul_self_nonneg vy
  have e1 := scale_cast_sq vx t s (by omega) ht2 hs1 (by linarith)
  have e2 := scale_cast_sq vy t s (by omega) ht2 hs1 (by linarith)
  have hsZ : ((s.toNat : ℕ) : ℤ) = s := Int.toNat_of_nonneg (by omega)
  have htZ : ((t.toNat : ℕ) : ℤ) = t := Int.toNat_of_nonneg (by omega)
  have hS : s.toNat = vx.natAbs * vx.natAbs + vy.natAbs * vy.natAbs := by
    have h3 : ((s.toNat : ℕ) : ℤ) =
        ((vx.natAbs * vx.natAbs + vy.natAbs * vy.natAbs : ℕ) : ℤ) := by
      push_cast
      rw [abs_mul_abs_self, abs_mul_abs_self, hsZ]
      exact hseq
    exact_mod_cast h3
  have hS1 : 1 ≤ s.toNat := by omega
  have hn : 2 ≤ t.toNat := by omega
  have upper := scale_sq_upper vx.natAbs vy.natAbs t.toNat s.toNat hS hS1
  have lower := scale_sq_lower vx.natAbs vy.natAbs t.toNat s.toNat hS hS1 hn
  rw [e1, e2]
  constructor
  · have h1 : (((t.toNat - 2) * (t.toNat - 2) : ℕ) : ℤ) <
        ((isqrt (vx.natAbs * vx.natAbs * t.toNat * t.toNat / s.toNat) *
            isqrt (vx.natAbs * vx.natAbs * t.toNat * t.toNat / s.toNat) +
          isqrt (vy.natAbs * vy.natAbs * t.toNat * t.toNat / s.toNat) *
            isqrt (vy.natAbs * vy.natAbs * t.toNat * t.toNat / s.toNat) : ℕ) : ℤ) :=
      Nat.cast_lt.mpr lower
    have h2 : ((t.toNat - 2 : ℕ) : ℤ) = t - 2 := by omega
    rw [Nat.cast_mul, h2, Nat.cast_add] at h1
    linarith
  · have h1 : ((isqrt (vx.natAbs * vx.natAbs * t.toNat * t.toNat / s.toNat) *
            isqrt (vx.natAbs * vx.natAbs * t.toNat * t.toNat / s.toNat) +
          isqrt (vy.natAbs * vy.natAbs * t.toNat * t.toNat / s.toNat) *
            isqrt (vy.natAbs * vy.natAbs * t.toNat * t.toNat / s.toNat) : ℕ) : ℤ) ≤
        ((t.toNat * t.toNat : ℕ) : ℤ) := Nat.cast_le.mpr upper
    rw [Nat.cast_mul, htZ, Nat.cast_add] at h1
    linarith

/-- Core of the zero-speed re-randomization branch: the squared magnitude of
the fresh velocity `(rng_vx, ±⌊√(min² - rng_vx²)⌋)` lies in
`((min-1)², min²]`. -/
theorem speed_limit_zero_sq (min_speed rng_vx : ℤ)
    (hmin1 : 1 ≤ min_speed) (hmin2 : min_speed ≤ 181)
    (hrl : -min_speed ≤ rng_vx) (hru : rng_vx ≤ min_speed) :
    (min_speed - 1) * (min_speed - 1) <
        rng_vx * rng_vx +
          sat16 ((isqrt (wrap16 (wrap16 (min_speed * min_speed) -
              wrap16 (rng_vx * rng_vx))).toNat : ℕ) : ℤ) *
          sat16 ((isqrt (wrap16 (wrap16 (min_speed * min_speed) -
              wrap16 (rng_vx * rng_vx))).toNat : ℕ) : ℤ) ∧
      rng_vx * rng_vx +
          sat16 ((isqrt (wrap16 (wrap16 (min_speed * min_speed) -
              wrap16 (rng_vx * rng_vx))).toNat : ℕ) : ℤ) *
          sat16 ((isqrt (wrap16 (wrap16 (min_speed * min_speed) -
              wrap16 (rng_vx * rng_vx))).toNat : ℕ) : ℤ) ≤
        min_speed * min_speed := by
  have hm2 : min_speed * min_speed ≤ 32761 := by nlinarith
  have hm0 : (0 : ℤ) ≤ min_speed * min_speed := mul_self_nonneg _
  have hr2 : rng_vx * rng_vx ≤ min_speed * min_speed := by nlinarith
  have hr0 : (0 : ℤ) ≤ rng_vx * rng_vx := mul_self_nonneg _
  rw [@wrap16_eq_self (min_speed * min_speed) (by linarith) (by linarith),
    @wrap16_eq_self (rng_vx * rng_vx) (by linarith) (by linarith),
    @wrap16_eq_self (min_speed * min_speed - rng_vx * rng_vx) (by linarith) (by linarith)]
  have hm : ((min_speed.toNat : ℕ) : ℤ) = min_speed := Int.toNat_of_nonneg (by omega)
  have hVZ : ((rng_vx.natAbs * rng_vx.natAbs : ℕ) : ℤ) = rng_vx * rng_vx := by
    push_cast
    rw [abs_mul_abs_self]
  have hMZ : ((min_speed.toNat * min_speed.toNat : ℕ) : ℤ) = min_speed * min_speed := by
    push_cast
    rw [hm]
  have hvm : rng_vx.natAbs ≤ min_speed.toNat := by omega
  have hsub : ((min_speed.toNat * min_speed.toNat -
      rng_vx.natAbs * rng_vx.natAbs : ℕ) : ℤ) =
      min_speed * min_speed - rng_vx * rng_vx := by
    rw [Nat.cast_sub (Nat.mul_le_mul hvm hvm), hMZ, hVZ]
  have hdN : (min_speed * min_speed - rng_vx * rng_vx).toNat =
      min_speed.toNat * min_speed.toNat - rng_vx.natAbs * rng_vx.natAbs := by
    rw [← hsub, Int.toNat_natCast]
  rw [hdN]
  obtain ⟨P1, P2⟩ := zero_branch_bounds min_speed.toNat rng_vx.natAbs (by omega) hvm
  have hE32 : isqrt (min_speed.toNat * min_speed.toNat -
      rng_vx.natAbs * rng_vx.natAbs) ≤ 32767 := by
    have h1 : min_speed.toNat * min_speed.toNat -
        rng_vx.natAbs * rng_vx.natAbs < 182 * 182 := by
      have h2 : min_speed.toNat * min_speed.toNat ≤ 32761 := by
        exact_mod_cast hMZ ▸ hm2
      omega
    have := isqrt_lt.mpr h1
    omega
  rw [sat16_eq_self (by omega) (by omega)]
  have hm1' : ((min_speed.toNat - 1 : ℕ) : ℤ) = min_speed - 1 := by omega
  constructor
  · have h1 : (((min_speed.toNat - 1) * (min_speed.toNat - 1) : ℕ) : ℤ) <
        ((rng_vx.natAbs * rng_vx.natAbs +
          isqrt (min_speed.toNat * min_speed.toNat - rng_vx.natAbs * rng_vx.natAbs) *
          isqrt (min_speed.toNat * min_speed.toNat - rng_vx.natAbs * rng_vx.natAbs) : ℕ) : ℤ) :=
      Nat.cast_lt.mpr P1
    rw [Nat.cast_mul, hm1', Nat.cast_add, hVZ, Nat.cast_mul] at h1
    linarith
  · have h1 : ((rng_vx.natAbs * rng_vx.natAbs +
          isqrt (min_speed.toNat * min_speed.toNat - rng_vx.natAbs * rng_vx.natAbs) *
          isqrt (min_speed.toNat * min_speed.toNat - rng_vx.natAbs * rng_vx.natAbs) : ℕ) : ℤ) ≤
        ((min_speed.toNat * min_speed.toNat : ℕ) : ℤ) := Nat.cast_le.mpr P2
    rw [hMZ, Nat.cast_add, hVZ, Nat.cast_mul] at h1
    linarith

/-- C6 (corrected): a zero-velocity boid is re-randomized onto (approximately)
the circle of radius `min_speed`: the resulting squared speed lies in
`((min_speed-1)², min_speed²]`.  It does not equal `min_speed²` exactly in
general, because `velocity_y` is the truncated integer square root
`⌊√(min² - rng_vx²)⌋` (the spec's exact-radius claim fails; see the
counterexample). -/
theorem C6_zero_velocity_radius (b : Boid) (max_speed min_speed rng_vx : ℤ) (rng_sign : Bool)
    (hvx : b.velocity_x = 0) (hvy : b.velocity_y = 0)
    (hmin1 : 1 ≤ min_speed) (hmin2 : min_speed ≤ 181)
    (hrl : -min_speed ≤ rng_vx) (hru : rng_vx ≤ min_speed) :
    (min_speed - 1) * (min_speed - 1) <
        (b.speed_limit max_speed min_speed rng_vx rng_sign).speedSq ∧
      (b.speed_limit max_speed min_speed rng_vx rng_sign).speedSq ≤
        min_speed * min_speed := by
  have hcore := speed_limit_zero_sq min_speed rng_vx hmin1 hmin2 hrl hru
  have hw : wrap16 (0 : ℤ) = 0 := by norm_num [wrap16]
  simp only [Boid.speed_limit, hvx, hvy, mul_zero, zero_add, hw]
  rw [if_pos trivial]
  simp only [Boid.speedSq]
  rcases rng_sign with _ | _ <;>
    simp only [Bool.false_eq_true, eq_self_iff_true, if_false, if_true] <;>
    exact ⟨by nlinarith [hcore.1], by nlinarith [hcore.2]⟩

set_option maxHeartbeats 1600000 in
/-- C1 (corrected): after `speed_limit`, under no-overflow side conditions
(`2 ≤ min ≤ 181 < √32768`, `min < max ≤ 32767`, squared speed at most
`32767`, `rng_vx ∈ [-min, min]`), the squared speed lands in
`((min-1)², min²]` on the zero-velocity re-randomization branch and in
`((min-2)², (max+1)²)` otherwise.  The spec's exact claim
`min ≤ |v| ≤ max` fails by up to 2 units of truncation error; see the
counterexample. -/
theorem C1_speed_limit_magnitude (b : Boid) (max_speed min_speed rng_vx : ℤ) (rng_sign : Bool)
    (hmin1 : 2 ≤ min_speed) (hmin2 : min_speed ≤ 181)
    (hmax1 : min_speed < max_speed) (hmax2 : max_speed ≤ 32767)
    (hs : b.speedSq ≤ 32767)
    (hrl : -min_speed ≤ rng_vx) (hru : rng_vx ≤ min_speed) :
    (b.speedSq = 0 →
        (min_speed - 1) * (min_speed - 1) <
            (b.speed_limit max_speed min_speed rng_vx rng_sign).speedSq ∧
          (b.speed_limit max_speed min_speed rng_vx rng_sign).speedSq ≤
            min_speed * min_speed) ∧
      (b.speedSq ≠ 0 →
        (min_speed - 2) * (min_speed - 2) <
            (b.speed_limit max_speed min_speed rng_vx rng_sign).speedSq ∧
          (b.speed_limit max_speed min_speed rng_vx rng_sign).speedSq <
            (max_speed + 1) * (max_speed + 1)) := by
  have hx2 : (0 : ℤ) ≤ b.velocity_x * b.velocity_x := mul_self_nonneg _
  have hy2 : (0 : ℤ) ≤ b.velocity_y * b.velocity_y := mul_self_nonneg _
  have hsq : b.speedSq = b.velocity_x * b.velocity_x + b.velocity_y * b.velocity_y := rfl
  have hsle : b.velocity_x * b.velocity_x + b.velocity_y * b.velocity_y ≤ 32767 := by
    rw [← hsq]; exact hs
  have w1 : wrap16 (b.velocity_x * b.velocity_x) = b.velocity_x * b.velocity_x :=
    wrap16_eq_self (by linarith) (by linarith)
  have w2 : wrap16 (b.velocity_y * b.velocity_y) = b.velocity_y * b.velocity_y :=
    wrap16_eq_self (by linarith) (by linarith)
  have w3 : wrap16 (b.velocity_x * b.velocity_x + b.velocity_y * b.velocity_y) =
      b.velocity_x * b.velocity_x + b.velocity_y * b.velocity_y :=
    wrap16_eq_self (by linarith) (by linarith)
  constructor
  · intro h0
    have h0' : b.velocity_x * b.velocity_x + b.velocity_y * b.velocity_y = 0 := by
      rw [← hsq]; exact h0
    have hcore := speed_limit_zero_sq min_speed rng_vx (by omega) hmin2 hrl hru
    have hw : wrap16 (0 : ℤ) = 0 := by norm_num [wrap16]
    simp only [Boid.speed_limit, w1, w2, h0', hw]
    rw [if_pos trivial]
    simp only [Boid.speedSq]
    rcases rng_sign with _ | _ <;>
      simp only [Bool.false_eq_true, eq_self_iff_true, if_false, if_true] <;>
      exact ⟨by nlinarith [hcore.1], by nlinarith [hcore.2]⟩
  · intro hne
    have hne' : ¬ (b.velocity_x * b.velocity_x + b.velocity_y * b.velocity_y = 0) := by
      rw [← hsq]; exact hne
    have hpos : 1 ≤ b.velocity_x * b.velocity_x + b.velocity_y * b.velocity_y := by
      omega
    simp only [Boid.speed_limit, w1, w2, w3, gt_iff_lt]
    rw [if_neg hne',
      if_neg (by omega : ¬ b.velocity_x * b.velocity_x + b.velocity_y * b.velocity_y < 0)]
    by_cases hgt : max_speed <
        ((isqrt (b.velocity_x * b.velocity_x + b.velocity_y * b.velocity_y).toNat : ℕ) : ℤ)
    · rw [if_pos hgt, if_pos hgt]
      have hnlt : ¬ ((isqrt (b.velocity_x * b.velocity_x +
          b.velocity_y * b.velocity_y).toNat : ℕ) : ℤ) < min_speed := by omega
      rw [if_neg hnlt, if_neg hnlt]
      simp only [Boid.speedSq]
      obtain ⟨L, U⟩ := scale_pair_bounds b.velocity_x b.velocity_y max_speed
        (b.velocity_x * b.velocity_x + b.velocity_y * b.velocity_y)
        (by omega) hmax2 hpos rfl
      have hmono : (min_speed - 2) * (min_speed - 2) ≤
          (max_speed - 2) * (max_speed - 2) :=
        mul_self_le_mul_self (by linarith) (by linarith)
      exact ⟨by linarith, by nlinarith [U]⟩
    · rw [if_neg hgt, if_neg hgt]
      by_cases hlt : ((isqrt (b.velocity_x * b.velocity_x +
          b.velocity_y * b.velocity_y).toNat : ℕ) : ℤ) < min_speed
      · rw [if_pos hlt, if_pos hlt]
        simp only [Boid.speedSq]
        obtain ⟨L, U⟩ := scale_pair_bounds b.velocity_x b.velocity_y min_speed
          (b.velocity_x * b.velocity_x + b.velocity_y * b.velocity_y)
          hmin1 (by linarith) hpos rfl
        have hmono : min_speed * min_speed < (max_speed + 1) * (max_speed + 1) :=
          mul_self_lt_mul_self (by linarith) (by linarith)
        exact ⟨L, by linarith⟩
      · rw [if_neg hlt, if_neg hlt]
        simp only [Boid.speedSq]
        have hEmin : min_speed.toNat ≤
            isqrt (b.velocity_x * b.velocity_x + b.velocity_y * b.velocity_y).toNat := by
          omega
        have hsmin : min_speed.toNat * min_speed.toNat ≤
            (b.velocity_x * b.velocity_x + b.velocity_y * b.velocity_y).toNat :=
          le_isqrt.mp hEmin
        have hsminZ : min_speed * min_speed ≤
            b.velocity_x * b.velocity_x + b.velocity_y * b.velocity_y := by
          have h1 : ((min_speed.toNat * min_speed.toNat : ℕ) : ℤ) ≤
              (((b.velocity_x * b.velocity_x + b.velocity_y * b.velocity_y).toNat : ℕ) : ℤ) :=
            Nat.cast_le.mpr hsmin
          rw [Int.toNat_of_nonneg (by linarith)] at h1
          have h2 : ((min_speed.toNat : ℕ) : ℤ) = min_speed :=
            Int.toNat_of_nonneg (by omega)
          rw [Nat.cast_mul, h2] at h1
          exact h1
        have hEmax : isqrt (b.velocity_x * b.velocity_x +
            b.velocity_y * b.velocity_y).toNat < max_speed.toNat + 1 := by
          omega
        have hsmax : (b.velocity_x * b.velocity_x + b.velocity_y * b.velocity_y).toNat <
            (max_speed.toNat + 1) * (max_speed.toNat + 1) := isqrt_lt.mp hEmax
        have hsmaxZ : b.velocity_x * b.velocity_x + b.velocity_y * b.velocity_y <
            (max_speed + 1) * (max_speed + 1) := by
          have h1 : (((b.velocity_x * b.velocity_x + b.velocity_y * b.velocity_y).toNat : ℕ) : ℤ) <
              (((max_speed.toNat + 1) * (max_speed.toNat + 1) : ℕ) : ℤ) :=
            Nat.cast_lt.mpr hsmax
          rw [Int.toNat_of_nonneg (by linarith)] at h1
          have h2 : ((max_speed.toNat : ℕ) : ℤ) = max_speed :=
            Int.toNat_of_nonneg (by omega)
          rw [Nat.cast_mul, Nat.cast_add, Nat.cast_one, h2] at h1
          exact h1
        exact ⟨by nlinarith [hsminZ], hsmaxZ⟩

/-- `wrap16` always lands in the `i16` range. -/
theorem wrap16_bounds (z : ℤ) : -32768 ≤ wrap16 z ∧ wrap16 z ≤ 32767 := by
  unfold wrap16
  omega

/-- C2 (code bug): at a view angle of exactly 360 degrees — reachable, since
the GUI slider allows `0.0..=365.0` — the sight test rejects even a target at
the facing angle itself: `(upper - lower) % 360` collapses to `0`, so
`is_within_sight(0, 360, 0)` is `false`, contradicting the spec's claim that
at view angle 360 every target is visible. -/
theorem C2_view_angle_360_blind : Boid.is_within_sight 0 360 0 = false := by
  norm_num [Boid.is_within_sight, ratRem, qtrunc]

/-- C5 (confirmed): inserting a boid whose position falls outside the node's
boundary rectangle returns normally with `false` and leaves the tree
unchanged — a reportable, non-fatal condition, not a panic. -/
theorem C5_insert_outside_false (t : QuadTree) (b : Boid)
    (h : t.boundary.contains_point (b.vertice.x : ℚ) (b.vertice.y : ℚ) = false) :
    t.insert b = some (t, false) :=
  QuadTree.insert_not_contains h

/-- The claim's concrete scenario: boundary centered `(100, 100)` with half
extents `100`, boid at `(250, 250)`: `insert` returns `false`, tree unchanged. -/
theorem C5_insert_outside_false_witness :
    Rectangle.contains_point ⟨100, 100, 100, 100⟩ (((250 : ℤ) : ℚ)) (((250 : ℤ) : ℚ)) =
        false ∧
      (QuadTree.new 4 ⟨100, 100, 100, 100⟩).insert
          (Boid.mk ⟨250, 250⟩ 3 0 0 (0, 0, 0, 0)) =
        some (QuadTree.new 4 ⟨100, 100, 100, 100⟩, false) := by
  have h : Rectangle.contains_point ⟨100, 100, 100, 100⟩
      (((250 : ℤ) : ℚ)) (((250 : ℤ) : ℚ)) = false :=
    (Rectangle.contains_point_eq_false_iff _ _ _).mpr (by norm_num)
  exact ⟨h, C5_insert_outside_false (QuadTree.new 4 ⟨100, 100, 100, 100⟩)
    (Boid.mk ⟨250, 250⟩ 3 0 0 (0, 0, 0, 0)) h⟩

/-- C8 (confirmed): `query` never returns the query boid itself: if the
accumulator does not already contain it and the query returns normally, the
result list excludes every stored boid equal to the query target. -/
theorem C8_query_self_exclusion (t : QuadTree) (found : List Boid) (b : Boid)
    (r : ℚ) (res : List Boid) (h : t.query found b r = some res)
    (hnf : b ∉ found) : b ∉ res :=
  QuadTree.query_not_self t h hnf

/-- A one-boid tree queried by that same boid from an empty accumulator yields
`[]`, which indeed does not contain it. -/
theorem C8_query_self_exclusion_witness :
    (QuadTree.mk 1 ⟨0, 0, 100, 100⟩ [Boid.mk ⟨0, 0⟩ 3 0 0 (0, 0, 0, 0)]
          .none .none .none .none false).query []
        (Boid.mk ⟨0, 0⟩ 3 0 0 (0, 0, 0, 0)) 5 = some [] ∧
      (Boid.mk ⟨0, 0⟩ 3 0 0 (0, 0, 0, 0)) ∉ ([] : List Boid) := by
  have hc : Rectangle.contains_point ⟨0, 0, 100, 100⟩ (0 : ℚ) (0 : ℚ) = true :=
    (Rectangle.contains_point_iff _ _ _).mpr (by norm_num)
  have hq : (QuadTree.mk 1 ⟨0, 0, 100, 100⟩ [Boid.mk ⟨0, 0⟩ 3 0 0 (0, 0, 0, 0)]
          .none .none .none .none false).query []
        (Boid.mk ⟨0, 0⟩ 3 0 0 (0, 0, 0, 0)) 5 = some [] := by
    simp [QuadTree.query, hc]
  exact ⟨hq, C8_query_self_exclusion _ _ _ _ _ hq (by simp)⟩

/-- C9 (confirmed): in every reachable tree (constructed by `new` with
positive capacity, grown by arbitrary inserts), a split node has all four
children present, and `insert`, `query` and `to_vec` return normally — the
`panic!` branches on a missing child after splitting are unreachable. -/
theorem C9_reachable_no_panic {t : QuadTree} (hr : Reach t) :
    (t.splitted = true →
      t.top_left.isSome = true ∧ t.top_right.isSome = true ∧
        t.bottom_left.isSome = true ∧ t.bottom_right.isSome = true) ∧
      (∀ b, (t.insert b).isSome = true) ∧
      (∀ found b r, ∃ res, t.query found b r = some res) ∧
      (∃ v, t.to_vec = some v) := by
  have hwf := Reach_WF hr
  refine ⟨?_, QuadTree.insert_isSome hwf, ?_, QuadTree.to_vec_isSome hwf⟩
  · intro hsp
    cases hwf with
    | leaf cap bd bs hcap => simp [QuadTree.splitted] at hsp
    | node cap bd bs qtr qtl qbr qbl hcap h1 h2 h3 h4 h5 h6 h7 h8 h9 h10 h11 h12 =>
      exact ⟨rfl, rfl, rfl, rfl⟩
  · intro found b r
    exact QuadTree.query_isSome hwf found b r

/-- A freshly constructed capacity-4 tree is reachable and enjoys the no-panic
guarantees. -/
theorem C9_reachable_no_panic_witness :
    Reach (QuadTree.new 4 ⟨100, 100, 100, 100⟩) ∧
      (((QuadTree.new 4 ⟨100, 100, 100, 100⟩).splitted = true →
        (QuadTree.new 4 ⟨100, 100, 100, 100⟩).top_left.isSome = true ∧
          (QuadTree.new 4 ⟨100, 100, 100, 100⟩).top_right.isSome = true ∧
          (QuadTree.new 4 ⟨100, 100, 100, 100⟩).bottom_left.isSome = true ∧
          (QuadTree.new 4 ⟨100, 100, 100, 100⟩).bottom_right.isSome = true) ∧
        (∀ b, ((QuadTree.new 4 ⟨100, 100, 100, 100⟩).insert b).isSome = true) ∧
        (∀ found b r, ∃ res,
          (QuadTree.new 4 ⟨100, 100, 100, 100⟩).query found b r = some res) ∧
        (∃ v, (QuadTree.new 4 ⟨100, 100, 100, 100⟩).to_vec = some v)) := by
  have hr : Reach (QuadTree.new 4 ⟨100, 100, 100, 100⟩) :=
    Reach.new 4 _ (by norm_num)
  exact ⟨hr, C9_reachable_no_panic hr⟩

/-- C10 (corrected): provided `width` and `height` fit in `i16` (at most
32767), `update` keeps the position inside the closed screen rectangle
`[0, width] × [0, height]`, and a coordinate that leaves through one edge is
reset to the opposite edge (`width`, resp. `0`) rather than translated by the
overshoot.  For larger `u16` sizes the claim fails because `width as i16`
reinterprets them as negative; see the counterexample. -/
theorem C10_update_bounds (b : Boid) (width height : ℕ)
    (hw : width ≤ 32767) (hh : height ≤ 32767) :
    (0 ≤ (b.update width height).vertice.x ∧
        (b.update width height).vertice.x ≤ (width : ℤ) ∧
        0 ≤ (b.update width height).vertice.y ∧
        (b.update width height).vertice.y ≤ (height : ℤ)) ∧
      (wrap16 (b.vertice.x + b.velocity_x) < 0 →
        (b.update width height).vertice.x = (width : ℤ)) ∧
      ((width : ℤ) < wrap16 (b.vertice.x + b.velocity_x) →
        (b.update width height).vertice.x = 0) ∧
      (wrap16 (b.vertice.y + b.velocity_y) < 0 →
        (b.update width height).vertice.y = (height : ℤ)) ∧
      ((height : ℤ) < wrap16 (b.vertice.y + b.velocity_y) →
        (b.update width height).vertice.y = 0) := by
  have hwx := wrap16_bounds (b.vertice.x + b.velocity_x)
  have hwy := wrap16_bounds (b.vertice.y + b.velocity_y)
  have hww : wrap16 ((width : ℕ) : ℤ) = (width : ℤ) :=
    wrap16_eq_self (by omega) (by omega)
  have hwh : wrap16 ((height : ℕ) : ℤ) = (height : ℤ) :=
    wrap16_eq_self (by omega) (by omega)
  simp only [Boid.update, hww, hwh]
  split_ifs <;>
    exact ⟨⟨by omega, by omega, by omega, by omega⟩,
      fun h => by omega, fun h => by omega, fun h => by omega, fun h => by omega⟩

/-- A `640 × 360` screen: the amended bounds hold. -/
theorem C10_update_bounds_witness :
    (640 : ℕ) ≤ 32767 ∧ (360 : ℕ) ≤ 32767 ∧
      (0 ≤ ((Boid.mk ⟨0, 0⟩ 3 (-1) 0 (255, 255, 0, 255)).update 640 360).vertice.x ∧
        ((Boid.mk ⟨0, 0⟩ 3 (-1) 0 (255, 255, 0, 255)).update 640 360).vertice.x ≤
          ((640 : ℕ) : ℤ) ∧
        0 ≤ ((Boid.mk ⟨0, 0⟩ 3 (-1) 0 (255, 255, 0, 255)).update 640 360).vertice.y ∧
        ((Boid.mk ⟨0, 0⟩ 3 (-1) 0 (255, 255, 0, 255)).update 640 360).vertice.y ≤
          ((360 : ℕ) : ℤ)) := by
  obtain ⟨h1, _⟩ := C10_update_bounds (Boid.mk ⟨0, 0⟩ 3 (-1) 0 (255, 255, 0, 255))
    640 360 (by norm_num) (by norm_num)
  exact ⟨by norm_num, by norm_num, h1⟩

/-- C10 counterexample: with `width = 40000` — a legal `u16` screen size — a
boid stepping left from `x = 0` is reset to `wrap16 40000 = -25536`, far
outside the screen, so the original unconditional claim `0 ≤ x ≤ width`
fails. -/
theorem C10_update_escapes :
    ((Boid.mk ⟨0, 0⟩ 3 (-1) 0 (255, 255, 0, 255)).update 40000 100).vertice.x =
      -25536 := by decide

/-- C3 (confirmed): inserting any list of boids whose positions lie inside the
root boundary into a freshly constructed tree (with positive capacity) and
then flattening with `to_vec` returns exactly the inserted boids up to
permutation — no boid lost, none duplicated — for every insertion order. -/
theorem C3_insert_all_to_vec_roundtrip (cap : ℕ) (bd : Rectangle) (l : List Boid)
    (hcap : 1 ≤ cap)
    (hall : ∀ b ∈ l, bd.contains_point (b.vertice.x : ℚ) (b.vertice.y : ℚ) = true) :
    ∃ t' v', (QuadTree.new cap bd).insert_all l = some t' ∧ t'.to_vec = some v' ∧
      v'.Perm l := by
  have hwf : WF (QuadTree.new cap bd) := WF.leaf _ _ _ hcap
  obtain ⟨t', v', h1, h2, h3⟩ := QuadTree.insert_all_perm l (QuadTree.new cap bd) hwf
    (fun b hb => hall b hb) to_vec_leaf
  exact ⟨t', v', h1, h2, by simpa using h3⟩

/-- A singleton round trip through a fresh capacity-1 tree. -/
theorem C3_insert_all_to_vec_roundtrip_witness :
    (1 : ℕ) ≤ 1 ∧
      (∀ b ∈ [Boid.mk ⟨1, 1⟩ 3 0 0 (0, 0, 0, 0)],
        Rectangle.contains_point ⟨0, 0, 100, 100⟩ (b.vertice.x : ℚ) (b.vertice.y : ℚ) =
          true) ∧
      (∃ t' v', (QuadTree.new 1 ⟨0, 0, 100, 100⟩).insert_all
          [Boid.mk ⟨1, 1⟩ 3 0 0 (0, 0, 0, 0)] = some t' ∧ t'.to_vec = some v' ∧
        v'.Perm [Boid.mk ⟨1, 1⟩ 3 0 0 (0, 0, 0, 0)]) := by
  have hall : ∀ b ∈ [Boid.mk ⟨1, 1⟩ 3 0 0 (0, 0, 0, 0)],
      Rectangle.contains_point ⟨0, 0, 100, 100⟩ (b.vertice.x : ℚ) (b.vertice.y : ℚ) =
        true := by
    intro b hb
    simp only [List.mem_singleton] at hb
    subst hb
    exact (Rectangle.contains_point_iff _ _ _).mpr (by norm_num)
  exact ⟨le_refl 1, hall,
    C3_insert_all_to_vec_roundtrip 1 ⟨0, 0, 100, 100⟩ _ (le_refl 1) hall⟩

/-- C4 (confirmed): completeness of `query` — a boid successfully inserted
into a well-formed tree is found by any subsequent query on a different
target boid whose radius is at least the tree's `big_radius`, a bound large
enough that the query circle meets every node rectangle of the tree. -/
theorem C4_query_completeness {t : QuadTree} (hwf : WF t) {b : Boid}
    {t' : QuadTree} (hins : t.insert b = some (t', true)) (q : Boid)
    (hne : b ≠ q) {r : ℚ} (hr : t'.big_radius q.vertice ≤ r) :
    ∃ res, t'.query [] q r = some res ∧ b ∈ res := by
  have hwf' : WF t' := QuadTree.insert_WF hwf hins
  obtain ⟨v, hv⟩ := QuadTree.to_vec_isSome hwf
  obtain ⟨v', hv'⟩ := QuadTree.to_vec_isSome hwf'
  have hperm := QuadTree.insert_to_vec_perm hwf hins hv hv'
  have hmem : b ∈ v' := hperm.mem_iff.mpr (List.mem_cons_self b v)
  have hall := big_radius_intersects hr
  have hq := QuadTree.query_collect hwf' hall hv' []
  rw [List.nil_append] at hq
  refine ⟨v'.filter (fun ob => ob ≠ q), hq, ?_⟩
  simp only [List.mem_filter, decide_eq_true_eq]
  exact ⟨hmem, hne⟩

/-- Insert one boid into a fresh capacity-1 tree, then query from the origin
with radius 1 (`≥ big_radius`): the inserted boid is returned. -/
theorem C4_query_completeness_witness :
    (QuadTree.new 1 ⟨0, 0, 100, 100⟩).insert (Boid.mk ⟨1, 1⟩ 3 0 0 (0, 0, 0, 0)) =
        some (QuadTree.mk 1 ⟨0, 0, 100, 100⟩ [Boid.mk ⟨1, 1⟩ 3 0 0 (0, 0, 0, 0)]
          .none .none .none .none false, true) ∧
      Boid.mk ⟨1, 1⟩ 3 0 0 (0, 0, 0, 0) ≠ Boid.mk ⟨0, 0⟩ 3 0 0 (0, 0, 0, 0) ∧
      (QuadTree.mk 1 ⟨0, 0, 100, 100⟩ [Boid.mk ⟨1, 1⟩ 3 0 0 (0, 0, 0, 0)]
          .none .none .none .none false).big_radius
        (Boid.mk ⟨0, 0⟩ 3 0 0 (0, 0, 0, 0)).vertice ≤ 1 ∧
      (∃ res, (QuadTree.mk 1 ⟨0, 0, 100, 100⟩ [Boid.mk ⟨1, 1⟩ 3 0 0 (0, 0, 0, 0)]
          .none .none .none .none false).query []
          (Boid.mk ⟨0, 0⟩ 3 0 0 (0, 0, 0, 0)) 1 = some res ∧
        Boid.mk ⟨1, 1⟩ 3 0 0 (0, 0, 0, 0) ∈ res) := by
  have hc : Rectangle.contains_point ⟨0, 0, 100, 100⟩ (1 : ℚ) (1 : ℚ) = true :=
    (Rectangle.contains_point_iff _ _ _).mpr (by norm_num)
  have hins : (QuadTree.new 1 ⟨0, 0, 100, 100⟩).insert
      (Boid.mk ⟨1, 1⟩ 3 0 0 (0, 0, 0, 0)) =
      some (QuadTree.mk 1 ⟨0, 0, 100, 100⟩ [Boid.mk ⟨1, 1⟩ 3 0 0 (0, 0, 0, 0)]
        .none .none .none .none false, true) := by
    simp [QuadTree.new, QuadTree.insert, hc]
  have hr : (QuadTree.mk 1 ⟨0, 0, 100, 100⟩ [Boid.mk ⟨1, 1⟩ 3 0 0 (0, 0, 0, 0)]
      .none .none .none .none false).big_radius
      (Boid.mk ⟨0, 0⟩ 3 0 0 (0, 0, 0, 0)).vertice ≤ 1 := by
    norm_num [QuadTree.big_radius, QuadTree.rects, OptQT.rects_child, max_def]
  exact ⟨hins, by decide, hr,
    C4_query_completeness (WF.leaf 1 ⟨0, 0, 100, 100⟩ [] (le_refl 1)) hins
      (Boid.mk ⟨0, 0⟩ 3 0 0 (0, 0, 0, 0)) (by decide) hr⟩

/-- A present child slot, after a normal `insert_child`, holds either the old
subtree or the old subtree with exactly this insert applied. -/
theorem insert_child_rel {c : OptQT} {b : Boid} {rc : OptQT × Bool}
    (h : c.insert_child b = some rc) :
    rc.1 = c ∨ ∃ q res, c = OptQT.some q ∧ q.insert b = some res ∧
      rc.1 = OptQT.some res.1 := by
  cases c with
  | none => exact absurd h (by simp [OptQT.insert_child])
  | some q =>
    obtain ⟨res, hres, hr⟩ := insert_child_some_elim h
    exact Or.inr ⟨q, res, rfl, hres, by rw [hr]⟩

/-- C7 (confirmed): subdivision happens exactly once.  Inserting into an
already-split node keeps it split (the transition is one-way) and each child
slot is either untouched or holds the old child with exactly this one insert
applied — children are never reconstructed or replaced by fresh subtrees.
Conversely, an insert into an unsplit node whose boid is in bounds and whose
stored list is full performs the one subdivision, setting the flag. -/
theorem C7_subdivision_once (cap : ℕ) (bd : Rectangle) (bs : List Boid)
    (tr0 tl0 br0 bl0 : OptQT) (sp0 : Bool) (b : Boid) (t' : QuadTree) (fl : Bool)
    (h : (QuadTree.mk cap bd bs tr0 tl0 br0 bl0 sp0).insert b = some (t', fl)) :
    (sp0 = true →
      t'.splitted = true ∧
        (t'.top_left = tl0 ∨ ∃ q r, tl0 = OptQT.some q ∧ q.insert b = some r ∧
          t'.top_left = OptQT.some r.1) ∧
        (t'.top_right = tr0 ∨ ∃ q r, tr0 = OptQT.some q ∧ q.insert b = some r ∧
          t'.top_right = OptQT.some r.1) ∧
        (t'.bottom_left = bl0 ∨ ∃ q r, bl0 = OptQT.some q ∧ q.insert b = some r ∧
          t'.bottom_left = OptQT.some r.1) ∧
        (t'.bottom_right = br0 ∨ ∃ q r, br0 = OptQT.some q ∧ q.insert b = some r ∧
          t'.bottom_right = OptQT.some r.1)) ∧
      (sp0 = false →
        bd.contains_point (b.vertice.x : ℚ) (b.vertice.y : ℚ) = true →
        ¬ bs.length < cap → t'.splitted = true) := by
  constructor
  · intro hsp
    subst hsp
    simp only [QuadTree.insert] at h
    split at h
    · simp only [Option.some.injEq, Prod.mk.injEq] at h
      obtain ⟨rfl, rfl⟩ := h
      exact ⟨rfl, Or.inl rfl, Or.inl rfl, Or.inl rfl, Or.inl rfl⟩
    · split at h
      · simp only [Option.some.injEq, Prod.mk.injEq] at h
        obtain ⟨rfl, rfl⟩ := h
        exact ⟨rfl, Or.inl rfl, Or.inl rfl, Or.inl rfl, Or.inl rfl⟩
      · split at h
        · split at h
          · exact absurd h (by simp)
          next rtl heqtl =>
            split at h
            next hfl =>
              simp only [Option.some.injEq, Prod.mk.injEq] at h
              obtain ⟨rfl, rfl⟩ := h
              refine ⟨rfl, ?_, Or.inl rfl, Or.inl rfl, Or.inl rfl⟩
              rcases insert_child_rel heqtl with h1 | ⟨q, res, hq, hres, hr1⟩
              · exact Or.inl h1
              · exact Or.inr ⟨q, res, hq, hres, hr1⟩
            next hfl =>
              split at h
              · exact absurd h (by simp)
              next rtr heqtr =>
                split at h
                next hfl2 =>
                  simp only [Option.some.injEq, Prod.mk.injEq] at h
                  obtain ⟨rfl, rfl⟩ := h
                  refine ⟨rfl, ?_, ?_, Or.inl rfl, Or.inl rfl⟩
                  · rcases insert_child_rel heqtl with h1 | ⟨q, res, hq, hres, hr1⟩
                    · exact Or.inl h1
                    · exact Or.inr ⟨q, res, hq, hres, hr1⟩
                  · rcases insert_child_rel heqtr with h1 | ⟨q, res, hq, hres, hr1⟩
                    · exact Or.inl h1
                    · exact Or.inr ⟨q, res, hq, hres, hr1⟩
                next hfl2 =>
                  split at h
                  · exact absurd h (by simp)
                  next rbl heqbl =>
                    split at h
                    next hfl3 =>
                      simp only [Option.some.injEq, Prod.mk.injEq] at h
                      obtain ⟨rfl, rfl⟩ := h
                      refine ⟨rfl, ?_, ?_, ?_, Or.inl rfl⟩
                      · rcases insert_child_rel heqtl with h1 | ⟨q, res, hq, hres, hr1⟩
                        · exact Or.inl h1
                        · exact Or.inr ⟨q, res, hq, hres, hr1⟩
                      · rcases insert_child_rel heqtr with h1 | ⟨q, res, hq, hres, hr1⟩
                        · exact Or.inl h1
                        · exact Or.inr ⟨q, res, hq, hres, hr1⟩
                      · rcases insert_child_rel heqbl with h1 | ⟨q, res, hq, hres, hr1⟩
                        · exact Or.inl h1
                        · exact Or.inr ⟨q, res, hq, hres, hr1⟩
                    next hfl3 =>
                      split at h
                      · exact absurd h (by simp)
                      next rbr heqbr =>
                        simp only [Option.some.injEq, Prod.mk.injEq] at h
                        obtain ⟨rfl, rfl⟩ := h
                        refine ⟨rfl, ?_, ?_, ?_, ?_⟩
                        · rcases insert_child_rel heqtl with h1 | ⟨q, res, hq, hres, hr1⟩
                          · exact Or.inl h1
                          · exact Or.inr ⟨q, res, hq, hres, hr1⟩
                        · rcases insert_child_rel heqtr with h1 | ⟨q, res, hq, hres, hr1⟩
                          · exact Or.inl h1
                          · exact Or.inr ⟨q, res, hq, hres, hr1⟩
                        · rcases insert_child_rel heqbl with h1 | ⟨q, res, hq, hres, hr1⟩
                          · exact Or.inl h1
                          · exact Or.inr ⟨q, res, hq, hres, hr1⟩
                        · rcases insert_child_rel heqbr with h1 | ⟨q, res, hq, hres, hr1⟩
                          · exact Or.inl h1
                          · exact Or.inr ⟨q, res, hq, hres, hr1⟩
        · simp_all
  · intro hsp hc hflen
    subst hsp
    simp only [QuadTree.insert] at h
    rw [if_neg (by simp [hc]), if_neg hflen] at h
    split at h
    · simp_all
    · obtain ⟨ctr, ctl, cbr, cbl, rfl⟩ := fresh_split_insert_shape h
      rfl

/-- A boid outside the boundary of an already-split node: the insert reports
`false`, the node stays split, and every child slot is untouched. -/
theorem C7_subdivision_once_witness :
    (QuadTree.mk 4 ⟨100, 100, 100, 100⟩ []
          (.some (QuadTree.new 4 ⟨150, 150, 50, 50⟩))
          (.some (QuadTree.new 4 ⟨50, 150, 50, 50⟩))
          (.some (QuadTree.new 4 ⟨150, 50, 50, 50⟩))
          (.some (QuadTree.new 4 ⟨50, 50, 50, 50⟩)) true).insert
        (Boid.mk ⟨250, 250⟩ 3 0 0 (0, 0, 0, 0)) =
      some (QuadTree.mk 4 ⟨100, 100, 100, 100⟩ []
          (.some (QuadTree.new 4 ⟨150, 150, 50, 50⟩))
          (.some (QuadTree.new 4 ⟨50, 150, 50, 50⟩))
          (.some (QuadTree.new 4 ⟨150, 50, 50, 50⟩))
          (.some (QuadTree.new 4 ⟨50, 50, 50, 50⟩)) true, false) ∧
      (true = true →
        (QuadTree.mk 4 ⟨100, 100, 100, 100⟩ []
            (.some (QuadTree.new 4 ⟨150, 150, 50, 50⟩))
            (.some (QuadTree.new 4 ⟨50, 150, 50, 50⟩))
            (.some (QuadTree.new 4 ⟨150, 50, 50, 50⟩))
            (.some (QuadTree.new 4 ⟨50, 50, 50, 50⟩)) true).splitted = true) := by
  have h : Rectangle.contains_point ⟨100, 100, 100, 100⟩
      (((250 : ℤ) : ℚ)) (((250 : ℤ) : ℚ)) = false :=
    (Rectangle.contains_point_eq_false_iff _ _ _).mpr (by norm_num)
  have hins : (QuadTree.mk 4 ⟨100, 100, 100, 100⟩ []
        (.some (QuadTree.new 4 ⟨150, 150, 50, 50⟩))
        (.some (QuadTree.new 4 ⟨50, 150, 50, 50⟩))
        (.some (QuadTree.new 4 ⟨150, 50, 50, 50⟩))
        (.some (QuadTree.new 4 ⟨50, 50, 50, 50⟩)) true).insert
      (Boid.mk ⟨250, 250⟩ 3 0 0 (0, 0, 0, 0)) =
      some (QuadTree.mk 4 ⟨100, 100, 100, 100⟩ []
        (.some (QuadTree.new 4 ⟨150, 150, 50, 50⟩))
        (.some (QuadTree.new 4 ⟨50, 150, 50, 50⟩))
        (.some (QuadTree.new 4 ⟨150, 50, 50, 50⟩))
        (.some (QuadTree.new 4 ⟨50, 50, 50, 50⟩)) true, false) :=
    QuadTree.insert_not_contains h
  have hall := C7_subdivision_once 4 ⟨100, 100, 100, 100⟩ []
    (.some (QuadTree.new 4 ⟨150, 150, 50, 50⟩))
    (.some (QuadTree.new 4 ⟨50, 150, 50, 50⟩))
    (.some (QuadTree.new 4 ⟨150, 50, 50, 50⟩))
    (.some (QuadTree.new 4 ⟨50, 50, 50, 50⟩)) true
    (Boid.mk ⟨250, 250⟩ 3 0 0 (0, 0, 0, 0)) _ false hins
  exact ⟨hins, fun hsp => ((hall.1 hsp).1)⟩

/-- The original C1 claim fails: a boid with velocity `(1, 1)` (not the
zero-velocity branch) limited to `[5, 10]` ends with squared speed `18 < 25`,
i.e. strictly below the demanded minimum magnitude. -/
theorem C1_speed_limit_below_min :
    (Boid.mk ⟨0, 0⟩ 3 1 1 (255, 255, 0, 255)).speedSq ≠ 0 ∧
      ((Boid.mk ⟨0, 0⟩ 3 1 1 (255, 255, 0, 255)).speed_limit 10 5 0 true).speedSq <
        5 * 5 := by decide

/-- The amended C1 bounds at velocity `(1, 1)`, `max = 10`, `min = 5`. -/
theorem C1_speed_limit_magnitude_witness :
    ((2 : ℤ) ≤ 5 ∧ (5 : ℤ) ≤ 181 ∧ (5 : ℤ) < 10 ∧ (10 : ℤ) ≤ 32767 ∧
        (Boid.mk ⟨0, 0⟩ 3 1 1 (255, 255, 0, 255)).speedSq ≤ 32767 ∧
        -(5 : ℤ) ≤ 0 ∧ (0 : ℤ) ≤ 5) ∧
      (((Boid.mk ⟨0, 0⟩ 3 1 1 (255, 255, 0, 255)).speedSq = 0 →
          (5 - 1) * (5 - 1) <
              ((Boid.mk ⟨0, 0⟩ 3 1 1 (255, 255, 0, 255)).speed_limit 10 5 0
                true).speedSq ∧
            ((Boid.mk ⟨0, 0⟩ 3 1 1 (255, 255, 0, 255)).speed_limit 10 5 0
              true).speedSq ≤ 5 * 5) ∧
        ((Boid.mk ⟨0, 0⟩ 3 1 1 (255, 255, 0, 255)).speedSq ≠ 0 →
          (5 - 2) * (5 - 2) <
              ((Boid.mk ⟨0, 0⟩ 3 1 1 (255, 255, 0, 255)).speed_limit 10 5 0
                true).speedSq ∧
            ((Boid.mk ⟨0, 0⟩ 3 1 1 (255, 255, 0, 255)).speed_limit 10 5 0
              true).speedSq < (10 + 1) * (10 + 1))) :=
  ⟨by decide, C1_speed_limit_magnitude (Boid.mk ⟨0, 0⟩ 3 1 1 (255, 255, 0, 255))
    10 5 0 true (by decide) (by decide) (by decide) (by decide) (by decide)
    (by decide) (by decide)⟩

/-- The original C6 claim fails: a zero-velocity boid with `min = 5` and
`rng_vx = 1` is re-randomized to `(1, 4)`, whose squared magnitude is
`17 ≠ 25`: the resulting speed is not exactly `min`. -/
theorem C6_zero_velocity_not_exact :
    (Boid.mk ⟨0, 0⟩ 3 0 0 (255, 255, 0, 255)).velocity_x = 0 ∧
      (Boid.mk ⟨0, 0⟩ 3 0 0 (255, 255, 0, 255)).velocity_y = 0 ∧
      ((Boid.mk ⟨0, 0⟩ 3 0 0 (255, 255, 0, 255)).speed_limit 10 5 1 true).speedSq ≠
        5 * 5 := by decide

/-- The amended C6 bounds at `min = 5`, `rng_vx = 1`: the squared speed `17`
lies in `(16, 25]`. -/
theorem C6_zero_velocity_radius_witness :
    ((Boid.mk ⟨0, 0⟩ 3 0 0 (255, 255, 0, 255)).velocity_x = 0 ∧
        (Boid.mk ⟨0, 0⟩ 3 0 0 (255, 255, 0, 255)).velocity_y = 0 ∧
        (1 : ℤ) ≤ 5 ∧ (5 : ℤ) ≤ 181 ∧ -(5 : ℤ) ≤ 1 ∧ (1 : ℤ) ≤ 5) ∧
      ((5 - 1) * (5 - 1) <
          ((Boid.mk ⟨0, 0⟩ 3 0 0 (255, 255, 0, 255)).speed_limit 10 5 1
            true).speedSq ∧
        ((Boid.mk ⟨0, 0⟩ 3 0 0 (255, 255, 0, 255)).speed_limit 10 5 1
          true).speedSq ≤ 5 * 5) :=
  ⟨by decide, C6_zero_velocity_radius (Boid.mk ⟨0, 0⟩ 3 0 0 (255, 255, 0, 255))
    10 5 1 true rfl rfl (by decide) (by decide) (by decide) (by decide)⟩
